import Mathlib

/-!
Verification of the schema document model of `profit/widgets/tickerdesigner.py`
(profitpy). The embedding models the `SchemaItem` hierarchy (`CallableItem`,
`TickerItem`, `FieldItem`, `IndexItem`) as a rose tree of uniform `Node`s
carrying a variant payload, mirroring the `QStandardItem` tree in which any
item may technically hold any children and legality is enforced by the
`canInsert` / `canPaste` predicates.  Python objects are identified by a
numeric `nid` (object identity); the foreground brush set by
`setCut` / `setCopy` / `resetForeground` is the `Fore` field; the
`cutSource` / `copySource` booleans are separate fields, exactly as in the
source.  Floats that are only stored and moved (ticker `strike`, float index
parameters) are carried as opaque `Int` values: the code never computes with
them.
-/

namespace ProfitTicker

/-- A parameter value stored in `IndexItem.parameters`: the code stores ints,
floats and strings and only ever copies them or compares them with a string
(`value == previous` in `updateLines`).  Numeric values are opaque here. -/
inductive PValue where
  | pInt (n : Int)
  | pStr (s : String)
deriving DecidableEq, Repr

/-- Foreground brush of an item: `resetForeground` sets `normal`, `setCut`
sets `red`, `setCopy` sets `blue`. -/
inductive Fore where
  | normal
  | red
  | blue
deriving DecidableEq, Repr

/-- Scalar attributes of a `CallableItem` (as set by
`CallableItem.fromSchema`). -/
structure CallableAttrs where
  name : String
  threadInterval : Int
  scriptName : String
  syspathName : String
  execType : String
  srcType : String
  messageTypes : List String
deriving DecidableEq, Repr

/-- Scalar attributes of a `TickerItem`. -/
structure TickerAttrs where
  tickerId : Int
  symbol : String
  exchange : String
  secType : String
  expiry : String
  right : String
  strike : Int
  currency : String
deriving DecidableEq, Repr

/-- Variant payload of a schema tree item: which of the four `SchemaItem`
subclasses the item is, together with that subclass's own attributes.
`FieldItem` stores `id`; `IndexItem` stores `typeName` and the `parameters`
mapping (a Python dict, modelled as an association list). -/
inductive Payload where
  | callable (a : CallableAttrs)
  | ticker (a : TickerAttrs)
  | field (id : Int)
  | index (typeName : String) (parameters : List (String × PValue))
deriving DecidableEq, Repr

/-- The four item variants, used for the `canInsert`/`canPaste` capability
tables (the Python code dispatches on the item's class). -/
inductive Variant where
  | callable
  | ticker
  | field
  | index
deriving DecidableEq, Repr

/-- A schema tree item: `nid` models Python object identity, `text` is the
`QStandardItem` display text, `cutSource`/`copySource` and `fore` are the
clip markers, `children` the item's rows in order. -/
inductive Node : Type where
  | mk (nid : Nat) (text : String) (cutSource : Bool) (copySource : Bool)
      (fore : Fore) (payload : Payload) (children : List Node)

def Node.nid : Node → Nat
  | .mk i _ _ _ _ _ _ => i

def Node.text : Node → String
  | .mk _ t _ _ _ _ _ => t

def Node.cutSource : Node → Bool
  | .mk _ _ c _ _ _ _ => c

def Node.copySource : Node → Bool
  | .mk _ _ _ c _ _ _ => c

def Node.fore : Node → Fore
  | .mk _ _ _ _ f _ _ => f

def Node.payload : Node → Payload
  | .mk _ _ _ _ _ p _ => p

def Node.children : Node → List Node
  | .mk _ _ _ _ _ _ cs => cs

/-- Replace the child list of an item, keeping everything else. -/
def Node.withChildren : Node → List Node → Node
  | .mk i t c k f p _, cs => .mk i t c k f p cs

def Payload.variant : Payload → Variant
  | .callable _ => .callable
  | .ticker _ => .ticker
  | .field _ => .field
  | .index _ _ => .index

def Node.variant (n : Node) : Variant := n.payload.variant

@[simp] theorem Node.nid_mk (i t c k f p cs) : (Node.mk i t c k f p cs).nid = i := rfl
@[simp] theorem Node.text_mk (i t c k f p cs) : (Node.mk i t c k f p cs).text = t := rfl
@[simp] theorem Node.cutSource_mk (i t c k f p cs) :
    (Node.mk i t c k f p cs).cutSource = c := rfl
@[simp] theorem Node.copySource_mk (i t c k f p cs) :
    (Node.mk i t c k f p cs).copySource = k := rfl
@[simp] theorem Node.fore_mk (i t c k f p cs) : (Node.mk i t c k f p cs).fore = f := rfl
@[simp] theorem Node.payload_mk (i t c k f p cs) :
    (Node.mk i t c k f p cs).payload = p := rfl
@[simp] theorem Node.children_mk (i t c k f p cs) :
    (Node.mk i t c k f p cs).children = cs := rfl
@[simp] theorem Node.withChildren_mk (i t c k f p cs cs') :
    (Node.mk i t c k f p cs).withChildren cs' = Node.mk i t c k f p cs' := rfl

/-! ### Capability tables

The `canInsert` overrides: `CallableItem.canInsert` returns `False`;
`TickerItem.canInsert(*types)` returns `FieldItem in types`;
`FieldItem.canInsert` and `IndexItem.canInsert` return `IndexItem in types`.
Each call site passes a single class, so the table is binary.  Inserting at
the model root happens only through the always-enabled
`actionInsertCallable` / `actionInsertTicker` actions, which append a
`CallableItem` / `TickerItem` to the invisible root item; there is no action
inserting a field or index at the root, and `enableActions` enables
`actionInsertField` / `actionInsertIndex` only when the selected item's
`canInsert` allows it. -/

/-- Capability `parent.canInsert(child)` for a selected (non-root) parent item. -/
def canInsert : Variant → Variant → Bool
  | .callable, _ => false
  | .ticker, c => c == .field
  | .field, c => c == .index
  | .index, c => c == .index

/-- Which variants can be created at the model root: the two root insert
actions create exactly `CallableItem`s and `TickerItem`s. -/
def rootCanInsert : Variant → Bool
  | .callable => true
  | .ticker => true
  | .field => false
  | .index => false

/-- Insertion legality for a parent position (`none` = the invisible model
root) and a child variant. -/
def insertAllowed : Option Variant → Variant → Bool
  | none, c => rootCanInsert c
  | some p, c => canInsert p c

/-- Capability `canCut` overrides: true exactly for `FieldItem` and `IndexItem`. -/
def canCut : Variant → Bool
  | .field => true
  | .index => true
  | _ => false

/-- Capability `canCopy` overrides: true exactly for `FieldItem` and `IndexItem`. -/
def canCopy : Variant → Bool
  | .field => true
  | .index => true
  | _ => false

/-- Capability `target.canPaste(item)`: `TickerItem.canPaste` is
`isinstance(item, FieldItem)`; `FieldItem.canPaste` and `IndexItem.canPaste`
are `isinstance(item, IndexItem)`; the base class returns `False`. -/
def canPaste : Variant → Variant → Bool
  | .ticker, c => c == .field
  | .field, c => c == .index
  | .index, c => c == .index
  | .callable, _ => false

/-- The set of parent/child variant pairs named by the specification's
structural-legality property. -/
def specLegalPairs : List (Option Variant × Variant) :=
  [(none, .callable), (none, .ticker), (some .ticker, .field),
   (some .field, .index), (some .index, .index)]

/-- C3: for all parent/child variant pairs, insertion is permitted iff the
pair is Root→Callable, Root→Ticker, Ticker→Field, Field→Index or
Index→Index; a `CallableItem` accepts no child variant, a `TickerItem`
accepts exactly `FieldItem`, and `FieldItem` and `IndexItem` each accept
exactly `IndexItem`. -/
theorem insertion_legality_iff :
    ∀ (p : Option Variant) (c : Variant),
      insertAllowed p c = true ↔ (p, c) ∈ specLegalPairs := by
  intro p c
  rcases p with _ | v
  · cases c <;> simp [insertAllowed, rootCanInsert, specLegalPairs]
  · cases v <;> cases c <;>
      simp [insertAllowed, canInsert, specLegalPairs]

/-! ### Reordering (`TickerDesigner.moveItem` plus its `enableActions` gate)

`moveItem(item, offset)` collapses the item's sibling list: it takes the
children at `row+offset` and `row` out of the parent and sets them back
swapped.  The handlers `on_actionMoveUp/Down_triggered` fire only while the
corresponding action is enabled, and `enableActions` enables them exactly
when `model.sibling(row∓1, 0, index).isValid()`; so at a boundary the swap
body is never reached and the sibling order stays unchanged. -/

/-- The swap performed by the body of `moveItem` for a valid sibling pair:
`takeChild(row+offset)`, `takeChild(row)`, `setChild(row+offset, item)`,
`setChild(row, other)`. Out-of-range cells leave the list unchanged (the
gate prevents this from being reached). -/
def moveItemSwap (l : List Node) (row other : Nat) : List Node :=
  match l[row]?, l[other]? with
  | some item, some oth => (l.set other item).set row oth
  | _, _ => l

/-- Operation `moveItem` as reachable from the UI: the swap guarded by the
`enableActions` sibling-validity check (`sibling(row+offset)` must be a
valid index). -/
def moveOp (l : List Node) (row : Nat) (offset : Int) : List Node :=
  if 0 ≤ (row : Int) + offset ∧ (row : Int) + offset < l.length ∧ row < l.length then
    moveItemSwap l row ((row : Int) + offset).toNat
  else l

/-- C10: `move(node, offset)` with `offset ∈ {-1, +1}` swaps the node at
`row` with the sibling at `row+offset`; when no such sibling exists (first
child moved up, last child moved down) the operation is a silent no-op. -/
theorem moveItem_swaps_or_noop (l : List Node) (row : Nat) (offset : Int)
    (hoff : offset = -1 ∨ offset = 1) :
    (¬ (0 ≤ (row : Int) + offset ∧ (row : Int) + offset < l.length) →
      moveOp l row offset = l) ∧
    (∀ (_ : 0 ≤ (row : Int) + offset) (_ : (row : Int) + offset < l.length)
        (_ : row < l.length),
      (moveOp l row offset).length = l.length ∧
      (moveOp l row offset)[((row : Int) + offset).toNat]? = l[row]? ∧
      (moveOp l row offset)[row]? = l[((row : Int) + offset).toNat]? ∧
      ∀ k, k ≠ row → k ≠ ((row : Int) + offset).toNat →
        (moveOp l row offset)[k]? = l[k]?) := by
  constructor
  · intro hbad
    unfold moveOp
    rw [if_neg]
    intro ⟨h1, h2, _⟩
    exact hbad ⟨h1, h2⟩
  · intro h0 h1 h2
    have hrowj : row ≠ ((row : Int) + offset).toNat := by
      rcases hoff with h | h <;> subst h <;> omega
    have hjlen : ((row : Int) + offset).toNat < l.length := by omega
    have hmv : moveOp l row offset =
        moveItemSwap l row ((row : Int) + offset).toNat := by
      unfold moveOp
      rw [if_pos ⟨h0, h1, h2⟩]
    set j := ((row : Int) + offset).toNat with hj
    have hswap : moveItemSwap l row j = (l.set j l[row]).set row l[j] := by
      unfold moveItemSwap
      rw [List.getElem?_eq_getElem h2, List.getElem?_eq_getElem hjlen]
    rw [hmv, hswap]
    refine ⟨by simp, ?_, ?_, ?_⟩
    · rw [List.getElem?_set_ne (by omega), List.getElem?_set_self (by simpa using hjlen)]
      simp [List.getElem?_eq_getElem h2]
    · rw [List.getElem?_set_self (by simpa using h2)]
      simp [List.getElem?_eq_getElem hjlen]
    · intro k hk1 hk2
      rw [List.getElem?_set_ne (by omega), List.getElem?_set_ne (by omega)]

/-- Two sibling field items used to exercise `moveItem`. -/
def exMoveA : Node := .mk 40 "bid" false false .normal (.field 1) []

def exMoveB : Node := .mk 41 "ask" false false .normal (.field 2) []

/-- Witness for C10: moving the first child up is a no-op, and moving the
second of two children up swaps the pair. -/
theorem moveItem_swaps_or_noop_witness :
    moveOp [exMoveA, exMoveB] 0 (-1) = [exMoveA, exMoveB] ∧
    (moveOp [exMoveA, exMoveB] 1 (-1))[0]? = some exMoveB ∧
    (moveOp [exMoveA, exMoveB] 1 (-1))[1]? = some exMoveA := by
  refine ⟨(moveItem_swaps_or_noop [exMoveA, exMoveB] 0 (-1) (Or.inl rfl)).1 (by decide),
    by rfl, by rfl⟩

/-! ### Cloning (`FieldItem.clone`, `IndexItem.clone`, `IndexItem.deepClone`)

`FieldItem.clone` builds a fresh `FieldItem` with the same text and `id` and
appends `child.clone()` for each immediate child.  `IndexItem.clone` builds
a fresh `IndexItem` with the same text, `typeName` and a `.copy()` of
`parameters`, then calls `deepClone(self, clone)`.  `deepClone(source,
target)` iterates the children of `source`; for each child it appends
`child.clone()` to `target` and then calls `deepClone(child, thatClone)` —
appending a second round of cloned children onto the child's clone, which
already received its own cloned children from `child.clone()` itself.
Fresh Python objects get `nid = 0` here (identity is irrelevant to the
structural facts proved about `clone`). -/

mutual

/-- Dispatch of `clone()`: defined by `FieldItem` and `IndexItem` only; the
other variants provide no clone and can never be cut/copied/pasted, so the
fallthrough returning the node itself is unreachable from the operations. -/
def clone : Node → Node
  | .mk _ t _ _ _ (.field i) cs => .mk 0 t false false .normal (.field i) (cloneRows cs)
  | .mk _ t _ _ _ (.index tn ps) cs =>
      .mk 0 t false false .normal (.index tn ps) (deepCloneRows cs)
  | n => n

/-- The loop in `FieldItem.clone`: `clone.appendRow(child.clone())`. -/
def cloneRows : List Node → List Node
  | [] => []
  | c :: cs => clone c :: cloneRows cs

/-- The rows appended to `target` by `IndexItem.deepClone(source, target)`,
as a function of `source`'s child list: each child contributes
`child.clone()` onto which `deepClone(child, childClone)` then appends a
second batch of clones of the child's children. -/
def deepCloneRows : List Node → List Node
  | [] => []
  | .mk i t cu co f p gs :: cs =>
      (clone (.mk i t cu co f p gs)).withChildren
          ((clone (.mk i t cu co f p gs)).children ++ deepCloneRows gs)
        :: deepCloneRows cs

end

/-- A three-level chain of index items: `exIdxA` → `exIdxB` → `exIdxC`. -/
def exIdxC : Node := .mk 3 "C" false false .normal (.index "EMA" []) []

def exIdxB : Node := .mk 2 "B" false false .normal (.index "SMA" []) [exIdxC]

def exIdxA : Node := .mk 1 "A" false false .normal (.index "KAMA" []) [exIdxB]

/-- C2 (failing-input evaluation): cloning the three-level index chain
`A → B → C` produces a clone of `B` with TWO copies of `C`: `deepClone`
appends cloned grandchildren onto child clones that already contain them, so
the clone's child sequence is not isomorphic to the original — the claim
fails on the code.  The original `B` has exactly one child. -/
theorem clone_duplicates_grandchildren :
    ((clone exIdxA).children.map (fun c => c.children.length) = [2] ∧
      exIdxA.children.map (fun c => c.children.length) = [1]) := by
  constructor
  · simp [exIdxA, exIdxB, exIdxC, clone, deepCloneRows]
  · rfl

/-! ### Serialization (`toSchema` / `fromSchema` / `schema` / `readSchema`)

The persisted schema is a list of Python dicts.  A dict key may be present
or absent, so every schema field is an `Option`; `data.get(k, d)` is
`(field.getD d)` and `data[k]` is a match that fails (KeyError) on `none`.
`addSchemaItem(**kwds)` dispatches on the presence of `execType` (Callable)
then `tickerId` (Ticker); any `KeyError` escaping `addTickerItem` is
swallowed by its `except (KeyError,)` clause, after which the final
`raise NotImplemented(str(kwds))` fires — so every failure inside
`addSchemaItem` surfaces as that single raise.  `readSchema` builds the
items one entry at a time and on any exception warns and calls
`resetSchema()`, which clears the model. -/

/-- Serialized form of an `IndexItem` (`IndexItem.toSchema` writes all four
keys; `fromSchema` tolerates missing `name`/`parameters`/`indexes`). -/
inductive IndexSchema where
  | mk (typeName : Option String) (name : Option String)
      (parameters : Option (List (String × PValue)))
      (indexes : Option (List IndexSchema))

def IndexSchema.typeName : IndexSchema → Option String
  | .mk tn _ _ _ => tn

/-- Serialized form of a `FieldItem`. -/
structure FieldSchema where
  name : Option String := none
  id : Option Int := none
  indexes : Option (List IndexSchema) := none

/-- A top-level schema entry: the union of the keys written by
`CallableItem.toSchema` and `TickerItem.toSchema`, each possibly absent. -/
structure Entry where
  name : Option String := none
  threadInterval : Option Int := none
  scriptName : Option String := none
  syspathName : Option String := none
  execType : Option String := none
  srcType : Option String := none
  messageTypes : Option (List String) := none
  tickerId : Option Int := none
  symbol : Option String := none
  exchange : Option String := none
  secType : Option String := none
  expiry : Option String := none
  right : Option String := none
  strike : Option Int := none
  currency : Option String := none
  fields : Option (List FieldSchema) := none

mutual

/-- Translation of `IndexItem.toSchema`: all four keys written, children
serialized in row order.  A non-index node in an index position cannot be
produced by the editing operations; its serialization is immaterial and
rendered as the empty dict. -/
def indexToSchema : Node → IndexSchema
  | .mk _ t _ _ _ (.index tn ps) cs => .mk (some tn) (some t) (some ps) (some (indexToSchemaRows cs))
  | _ => .mk none none none none

def indexToSchemaRows : List Node → List IndexSchema
  | [] => []
  | c :: cs => indexToSchema c :: indexToSchemaRows cs

end

/-- Translation of `FieldItem.toSchema`: `name` is the display text. -/
def fieldToSchema : Node → FieldSchema
  | .mk _ t _ _ _ (.field i) cs => { name := some t, id := some i, indexes := some (indexToSchemaRows cs) }
  | _ => {}

def fieldToSchemaRows : List Node → List FieldSchema
  | [] => []
  | c :: cs => fieldToSchema c :: fieldToSchemaRows cs

/-- Translation of `CallableItem.toSchema` (ignores children; a
`CallableItem` never has any since it accepts no insert or paste). -/
def callableToSchema (a : CallableAttrs) : Entry :=
  { name := some a.name, threadInterval := some a.threadInterval,
    scriptName := some a.scriptName, syspathName := some a.syspathName,
    execType := some a.execType, srcType := some a.srcType,
    messageTypes := some a.messageTypes }

/-- Translation of `TickerItem.toSchema`. -/
def tickerToSchema (a : TickerAttrs) (cs : List Node) : Entry :=
  { tickerId := some a.tickerId, symbol := some a.symbol,
    exchange := some a.exchange, secType := some a.secType,
    expiry := some a.expiry, right := some a.right,
    strike := some a.strike, currency := some a.currency,
    fields := some (fieldToSchemaRows cs) }

/-- Serialization of one root item (dispatch of `toSchema` on the item's
class).  Field/index items never sit at the root. -/
def rootToSchema : Node → Entry
  | .mk _ _ _ _ _ (.callable a) _ => callableToSchema a
  | .mk _ _ _ _ _ (.ticker a) cs => tickerToSchema a cs
  | _ => {}

/-- Translation of `TickerDesigner.schema()`: one entry per root item, in
row order. -/
def schemaOf (roots : List Node) : List Entry :=
  roots.map rootToSchema

mutual

/-- Translation of `IndexItem.fromSchema`: `typeName` is mandatory
(`data['typeName']`), text defaults to the type name, parameters to the
empty dict, children to the empty list.  `none` is the KeyError. -/
def indexFromSchema : IndexSchema → Option Node
  | .mk none _ _ _ => none
  | .mk (some tn) nm? ps? none =>
      some (.mk 0 (nm?.getD tn) false false .normal (.index tn (ps?.getD [])) [])
  | .mk (some tn) nm? ps? (some idx) =>
      match indexFromSchemaRows idx with
      | none => none
      | some ns => some (.mk 0 (nm?.getD tn) false false .normal (.index tn (ps?.getD [])) ns)

def indexFromSchemaRows : List IndexSchema → Option (List Node)
  | [] => some []
  | s :: ss =>
      match indexFromSchema s with
      | none => none
      | some n =>
          match indexFromSchemaRows ss with
          | none => none
          | some ns => some (n :: ns)

end

/-- Translation of `FieldItem.fromSchema`: `name` and `id` are mandatory. -/
def fieldFromSchema (s : FieldSchema) : Option Node :=
  match s.name, s.id with
  | some t, some i =>
      match indexFromSchemaRows (s.indexes.getD []) with
      | none => none
      | some ns => some (.mk 0 t false false .normal (.field i) ns)
  | _, _ => none

def fieldFromSchemaRows : List FieldSchema → Option (List Node)
  | [] => some []
  | s :: ss =>
      match fieldFromSchema s with
      | none => none
      | some n =>
          match fieldFromSchemaRows ss with
          | none => none
          | some ns => some (n :: ns)

/-- Translation of `TickerItem.fromSchema`: `tickerId` and `symbol` are
mandatory, everything else defaults. -/
def tickerFromSchema (e : Entry) : Option Node :=
  match e.tickerId, e.symbol with
  | some tid, some sym =>
      match fieldFromSchemaRows (e.fields.getD []) with
      | none => none
      | some ns =>
          some (.mk 0 sym false false .normal
            (.ticker { tickerId := tid, symbol := sym,
                       exchange := e.exchange.getD "", secType := e.secType.getD "",
                       expiry := e.expiry.getD "", right := e.right.getD "",
                       strike := e.strike.getD 0, currency := e.currency.getD "" }) ns)
  | _, _ => none

/-- Translation of `CallableItem.fromSchema`: every key optional, so this
never fails; the display text is the `name` value. -/
def callableFromSchema (e : Entry) : Node :=
  .mk 0 (e.name.getD "Unknown") false false .normal
    (.callable { name := e.name.getD "Unknown", threadInterval := e.threadInterval.getD 0,
                 scriptName := e.scriptName.getD "", syspathName := e.syspathName.getD "",
                 execType := e.execType.getD "", srcType := e.srcType.getD "",
                 messageTypes := e.messageTypes.getD [] }) []

/-- Failure of `addSchemaItem`: whatever goes wrong (no discriminating key,
or a `KeyError` swallowed by the ticker branch), the function ends at
`raise NotImplemented(str(kwds))`. -/
inductive LoadErr where
  | unknownEntry
deriving DecidableEq, Repr

/-- Translation of `TickerDesigner.addSchemaItem`: dispatch on the presence
of `execType`, then of `tickerId`; otherwise (or when the ticker branch
raises a `KeyError`, which its `except` swallows) the trailing raise. -/
def addSchemaItem (e : Entry) : Except LoadErr Node :=
  match e.execType with
  | some _ => .ok (callableFromSchema e)
  | none =>
      match e.tickerId with
      | some _ =>
          match tickerFromSchema e with
          | some n => .ok n
          | none => .error .unknownEntry
      | none => .error .unknownEntry

/-- The loop of `TickerDesigner.readSchema`: items are appended in order and
the first exception aborts the loop. -/
def buildItems : List Entry → Except LoadErr (List Node)
  | [] => .ok []
  | e :: es =>
      match addSchemaItem e with
      | .error err => .error err
      | .ok n =>
          match buildItems es with
          | .error err => .error err
          | .ok ns => .ok (n :: ns)

/-- Translation of `TickerDesigner.readSchema` invoked on an empty document
(`on_actionOpenSchema_triggered` calls `resetSchema()` first): the resulting
root items, plus whether the failure path ran (warning surfaced and
`resetSchema()` emptied the model again). -/
def readSchema (es : List Entry) : List Node × Bool :=
  match buildItems es with
  | .ok ns => (ns, false)
  | .error _ => ([], true)

/-! ### Constructible trees and the load/save round trip

Constructible documents — those reachable through the insert / paste /
rename / retype operations and `fromSchema` — keep a `CallableItem`'s text
equal to its `name` attribute (constructor, `fromSchema` and
`on_callableName_textEdited` all set both) and a `TickerItem`'s text equal
to its `symbol` (constructor, `fromSchema`, `on_symbolEdit_textEdited`), and
respect the structural legality table.  Serialization drops object identity
and the transient clip markers, which `stripTransient` erases for the
comparison. -/

mutual

def isIndexTree : Node → Bool
  | .mk _ _ _ _ _ (.index _ _) cs => isIndexForest cs
  | _ => false

def isIndexForest : List Node → Bool
  | [] => true
  | c :: cs => isIndexTree c && isIndexForest cs

end

def isFieldTree : Node → Bool
  | .mk _ _ _ _ _ (.field _) cs => isIndexForest cs
  | _ => false

def isFieldForest : List Node → Bool
  | [] => true
  | c :: cs => isFieldTree c && isFieldForest cs

/-- A constructible root item: a childless callable whose text is its name,
or a ticker whose text is its symbol with field children. -/
def isRootItem : Node → Bool
  | .mk _ t _ _ _ (.callable a) cs => t == a.name && cs.isEmpty
  | .mk _ t _ _ _ (.ticker a) cs => t == a.symbol && isFieldForest cs
  | _ => false

def isRootForest : List Node → Bool
  | [] => true
  | c :: cs => isRootItem c && isRootForest cs

mutual

/-- Erase what serialization does not carry: object identity and the
transient clip markers (`cutSource`/`copySource` booleans and foreground). -/
def stripTransient : Node → Node
  | .mk _ t _ _ _ p cs => .mk 0 t false false .normal p (stripTransientRows cs)

def stripTransientRows : List Node → List Node
  | [] => []
  | c :: cs => stripTransient c :: stripTransientRows cs

end

mutual

def sizeN : Node → Nat
  | .mk _ _ _ _ _ _ cs => 1 + sizeL cs

def sizeL : List Node → Nat
  | [] => 0
  | c :: cs => sizeN c + sizeL cs

end

theorem sizeN_eq (i t cu co f p cs) :
    sizeN (.mk i t cu co f p cs) = 1 + sizeL cs := by
  simp [sizeN]

theorem sizeL_nil : sizeL [] = 0 := by simp [sizeL]

theorem sizeL_cons (c : Node) (cs : List Node) :
    sizeL (c :: cs) = sizeN c + sizeL cs := by
  simp [sizeL]

theorem sizeN_pos (n : Node) : 1 ≤ sizeN n := by
  cases n with
  | mk i t cu co f p cs => rw [sizeN_eq]; omega

theorem indexForest_roundtrip_aux (k : Nat) :
    ∀ (l : List Node), sizeL l ≤ k → isIndexForest l = true →
      indexFromSchemaRows (indexToSchemaRows l) = some (stripTransientRows l) := by
  induction k with
  | zero =>
      intro l hl _
      cases l with
      | nil => simp [indexToSchemaRows, indexFromSchemaRows, stripTransientRows]
      | cons c cs =>
          exfalso
          rw [sizeL_cons] at hl
          have := sizeN_pos c
          omega
  | succ k ih =>
      intro l hl h
      cases l with
      | nil => simp [indexToSchemaRows, indexFromSchemaRows, stripTransientRows]
      | cons c cs =>
          rw [sizeL_cons] at hl
          rw [isIndexForest] at h
          rcases Bool.and_eq_true_iff.mp h with ⟨hc, hcs⟩
          cases c with
          | mk i t cu co f p gs =>
              cases p with
              | index tn ps =>
                  rw [isIndexTree] at hc
                  rw [sizeN_eq] at hl
                  have hgs := ih gs (by omega) hc
                  have htail := ih cs (by omega) hcs
                  rw [indexToSchemaRows, indexToSchema, indexFromSchemaRows,
                    indexFromSchema, hgs, htail, stripTransientRows, stripTransient]
                  simp
              | callable a => simp [isIndexTree] at hc
              | ticker a => simp [isIndexTree] at hc
              | field fid => simp [isIndexTree] at hc

theorem indexForest_roundtrip (l : List Node) (h : isIndexForest l = true) :
    indexFromSchemaRows (indexToSchemaRows l) = some (stripTransientRows l) :=
  indexForest_roundtrip_aux (sizeL l) l (Nat.le_refl _) h

theorem fieldForest_roundtrip (l : List Node) (h : isFieldForest l = true) :
    fieldFromSchemaRows (fieldToSchemaRows l) = some (stripTransientRows l) := by
  induction l with
  | nil => simp [fieldToSchemaRows, fieldFromSchemaRows, stripTransientRows]
  | cons c cs ih =>
      rw [isFieldForest] at h
      rcases Bool.and_eq_true_iff.mp h with ⟨hc, hcs⟩
      cases c with
      | mk i t cu co f p gs =>
          cases p with
          | field fid =>
              rw [isFieldTree] at hc
              have hgs := indexForest_roundtrip gs hc
              rw [fieldToSchemaRows, fieldToSchema, fieldFromSchemaRows, fieldFromSchema]
              simp only [Option.getD_some]
              rw [hgs, ih hcs, stripTransientRows, stripTransient]
          | callable a => simp [isFieldTree] at hc
          | ticker a => simp [isFieldTree] at hc
          | index tn ps => simp [isFieldTree] at hc

theorem rootItem_roundtrip (n : Node) (h : isRootItem n = true) :
    addSchemaItem (rootToSchema n) = .ok (stripTransient n) := by
  cases n with
  | mk i t cu co f p cs =>
      cases p with
      | callable a =>
          rw [isRootItem] at h
          rcases Bool.and_eq_true_iff.mp h with ⟨ht, hcs⟩
          have ht' : t = a.name := by simpa using ht
          have hcs' : cs = [] := by simpa using hcs
          subst ht'; subst hcs'
          rw [rootToSchema, callableToSchema, addSchemaItem]
          simp only []
          rw [callableFromSchema, stripTransient, stripTransientRows]
          simp
      | ticker a =>
          rw [isRootItem] at h
          rcases Bool.and_eq_true_iff.mp h with ⟨ht, hcs⟩
          have ht' : t = a.symbol := by simpa using ht
          subst ht'
          have hfs := fieldForest_roundtrip cs hcs
          rw [rootToSchema, tickerToSchema, addSchemaItem]
          simp only []
          rw [tickerFromSchema]
          simp only [Option.getD_some]
          rw [hfs, stripTransient]
      | field fid => simp [isRootItem] at h
      | index tn ps => simp [isRootItem] at h

/-- C1: deserializing the serialized form of every constructible schema tree
(rebuilding each root entry through `addSchemaItem`/`fromSchema` from the
entry list produced by `schema()`/`toSchema`) succeeds and yields the same
forest — same root order, same variant, text and attributes everywhere —
up to the transient clip markers and object identity, which
`stripTransient` erases. -/
theorem schema_roundtrip (roots : List Node) (h : isRootForest roots = true) :
    readSchema (schemaOf roots) = (stripTransientRows roots, false) := by
  have hb : buildItems (schemaOf roots) = .ok (stripTransientRows roots) := by
    induction roots with
    | nil => simp [schemaOf, buildItems, stripTransientRows]
    | cons c cs ih =>
        rw [isRootForest] at h
        rcases Bool.and_eq_true_iff.mp h with ⟨hc, hcs⟩
        have hone := rootItem_roundtrip c hc
        rw [schemaOf] at ih ⊢
        simp only [List.map_cons]
        rw [buildItems, hone, ih hcs, stripTransientRows]
  rw [readSchema, hb]

/-- A small constructible forest: a callable plus a ticker→field→index
chain, with clip markers set on some nodes to show they are dropped. -/
def exForest : List Node :=
  [.mk 50 "job" false false .normal
      (.callable ⟨"job", 5, "s.py", "", "thread", "script", ["tick"]⟩) [],
   .mk 51 "ACME" true false .red
      (.ticker ⟨3, "ACME", "NYSE", "STK", "", "", 12, "USD"⟩)
      [.mk 52 "bid" false true .blue (.field 4)
        [.mk 53 "sma" false false .normal
            (.index "SMA" [("period", .pInt 20), ("series", .pStr "bid")]) []]]]

theorem exForest_wellFormed : isRootForest exForest = true := by
  simp [exForest, isRootForest, isRootItem, isFieldForest, isFieldTree,
    isIndexForest, isIndexTree]

/-- Witness for C1: serializing and re-reading the example forest restores
it exactly, with identity and clip markers reset. -/
theorem schema_roundtrip_witness :
    isRootForest exForest = true ∧
      readSchema (schemaOf exForest) = (stripTransientRows exForest, false) :=
  ⟨exForest_wellFormed, schema_roundtrip exForest exForest_wellFormed⟩

theorem buildItems_error_of_bad_entry (es : List Entry) (e : Entry)
    (hmem : e ∈ es) (hexec : e.execType = none) (htid : e.tickerId = none) :
    buildItems es = .error .unknownEntry := by
  induction es with
  | nil => cases hmem
  | cons a as ih =>
      rcases List.mem_cons.mp hmem with rfl | hmem'
      · rw [buildItems, addSchemaItem, hexec, htid]
      · rw [buildItems]
        cases hadd : addSchemaItem a with
        | error err => cases err; rfl
        | ok n => rw [ih hmem']

/-- C9: a schema entry carrying neither an `execType` key nor a `tickerId`
key makes `addSchemaItem` fail (the trailing `raise NotImplemented` — the
specification's `UnknownSchemaEntryError`), and `readSchema` then warns and
calls `resetSchema()`: every partially built root item is discarded and the
resulting document is empty. -/
theorem malformed_entry_resets_document (es : List Entry) (e : Entry)
    (hmem : e ∈ es) (hexec : e.execType = none) (htid : e.tickerId = none) :
    readSchema es = ([], true) := by
  rw [readSchema, buildItems_error_of_bad_entry es e hmem hexec htid]

/-- Witness for C9: loading a good callable entry followed by an entry with
no discriminating key leaves an empty document with the error surfaced. -/
theorem malformed_entry_resets_document_witness :
    readSchema [callableToSchema ⟨"job", 0, "", "", "thread", "script", []⟩, {}] =
      ([], true) :=
  malformed_entry_resets_document _ {} (by simp) rfl rfl

/-! ### Paths and traversal

Tree positions are addressed by their row indices from the invisible root
(`QModelIndex` rows); `getN` is path lookup, `allNodesRows` is the
pre-order `children` generator of `SchemaItem` applied to a row list. -/

def getN : List Nat → List Node → Option Node
  | [], _ => none
  | j :: rest, ns =>
      match ns[j]? with
      | none => none
      | some n =>
          match rest with
          | [] => some n
          | r :: rest' => getN (r :: rest') n.children

@[simp] theorem getN_nil (ns : List Node) : getN [] ns = none := rfl

@[simp] theorem getN_single (j : Nat) (ns : List Node) : getN [j] ns = ns[j]? := by
  rw [getN]
  cases hj : ns[j]? <;> simp

theorem getN_cons_some (j r : Nat) (rest : List Nat) (ns : List Node) (n : Node)
    (h : ns[j]? = some n) :
    getN (j :: r :: rest) ns = getN (r :: rest) n.children := by
  rw [getN, h]

theorem getN_cons_none (j r : Nat) (rest : List Nat) (ns : List Node)
    (h : ns[j]? = none) :
    getN (j :: r :: rest) ns = none := by
  rw [getN, h]

/-- Pre-order flattening of a row list: each item followed by its own
descendants (the `children` generator of `SchemaItem`). -/
def allNodesRows : List Node → List Node
  | [] => []
  | .mk i t cu co f p gs :: cs =>
      .mk i t cu co f p gs :: (allNodesRows gs ++ allNodesRows cs)

@[simp] theorem allNodesRows_nil : allNodesRows [] = [] := by simp [allNodesRows]

theorem allNodesRows_cons (c : Node) (cs : List Node) :
    allNodesRows (c :: cs) = c :: (allNodesRows c.children ++ allNodesRows cs) := by
  cases c; simp [allNodesRows]

/-! ### Rename propagation (`TickerDesigner.updateLines`)

After a field or index is renamed, `updateLines(item, previous, current)`
walks every strict descendant of `item.root` (the `children` generator),
skips `item` itself and nodes without a `parameters` attribute (only
`IndexItem`s have one), rewrites every `(key, value)` pair whose value
equals the old name, counts the rewrites, and emits the modified signal iff
the count is positive. -/

/-- Inner loop of `updateLines` on one `parameters` mapping: rewritten
mapping plus number of rewrites.  The Python comparison `value == previous`
is a comparison with a string: an int value never matches. -/
def updateParams (prev cur : String) : List (String × PValue) → List (String × PValue) × Nat
  | [] => ([], 0)
  | (k, v) :: rest =>
      let r := updateParams prev cur rest
      if v == .pStr prev then ((k, .pStr cur) :: r.1, r.2 + 1)
      else ((k, v) :: r.1, r.2)

/-- Traversal of `updateLines` over a row list: every `IndexItem` whose
identity differs from the renamed item (`obj != item and
hasattr(obj, 'parameters')`) gets its parameters rewritten; counts are
summed over the whole subtree. -/
def updateLinesRows (itemId : Nat) (prev cur : String) : List Node → List Node × Nat
  | [] => ([], 0)
  | .mk i t cu co f p gs :: cs =>
      let kids := updateLinesRows itemId prev cur gs
      let rest := updateLinesRows itemId prev cur cs
      match p with
      | .index tn ps =>
          if i == itemId then
            (.mk i t cu co f (.index tn ps) kids.1 :: rest.1, kids.2 + rest.2)
          else
            let up := updateParams prev cur ps
            (.mk i t cu co f (.index tn up.1) kids.1 :: rest.1, up.2 + kids.2 + rest.2)
      | .callable a => (.mk i t cu co f (.callable a) kids.1 :: rest.1, kids.2 + rest.2)
      | .ticker a => (.mk i t cu co f (.ticker a) kids.1 :: rest.1, kids.2 + rest.2)
      | .field fid => (.mk i t cu co f (.field fid) kids.1 :: rest.1, kids.2 + rest.2)

/-- Translation of `TickerDesigner.updateLines` applied to the renamed
item's root item (the scan scope `item.root.children` — the root itself is
not visited). -/
def updateLines (itemId : Nat) (prev cur : String) (root : Node) : Node × Nat :=
  match root with
  | .mk i t cu co f p cs =>
      let r := updateLinesRows itemId prev cur cs
      (.mk i t cu co f p r.1, r.2)

/-- Specification-side count: the number of parameter entries holding the
old name over all parameters-bearing nodes of the subtree other than the
renamed item. -/
def lineRefCount (itemId : Nat) (prev : String) (ns : List Node) : Nat :=
  ((allNodesRows ns).map (fun n =>
    match n.payload with
    | .index _ ps =>
        if n.nid == itemId then 0
        else (ps.filter (fun kv => kv.2 == PValue.pStr prev)).length
    | _ => 0)).sum

/-- Effect of `updateLines` on a single visited node. -/
def updOne (itemId : Nat) (prev cur : String) : Node → Node
  | .mk i t cu co f (.index tn ps) gs =>
      .mk i t cu co f
        (.index tn (if i == itemId then ps else (updateParams prev cur ps).1))
        ((updateLinesRows itemId prev cur gs).1)
  | .mk i t cu co f (.callable a) gs =>
      .mk i t cu co f (.callable a) ((updateLinesRows itemId prev cur gs).1)
  | .mk i t cu co f (.ticker a) gs =>
      .mk i t cu co f (.ticker a) ((updateLinesRows itemId prev cur gs).1)
  | .mk i t cu co f (.field fid) gs =>
      .mk i t cu co f (.field fid) ((updateLinesRows itemId prev cur gs).1)

theorem updateLinesRows_fst (itemId : Nat) (prev cur : String) (l : List Node) :
    (updateLinesRows itemId prev cur l).1 = l.map (updOne itemId prev cur) := by
  induction l with
  | nil => simp [updateLinesRows]
  | cons c cs ih =>
      cases c with
      | mk i t cu co f p gs =>
          cases p with
          | index tn ps =>
              by_cases hid : (i == itemId) = true
              · rw [updateLinesRows]
                simp only [hid, if_true, List.map_cons, updOne, ih]
              · rw [updateLinesRows]
                simp only [Bool.not_eq_true] at hid
                simp only [hid, Bool.false_eq_true, if_false, List.map_cons, updOne, ih]
          | callable a => rw [updateLinesRows]; simp [updOne, ih]
          | ticker a => rw [updateLinesRows]; simp [updOne, ih]
          | field fid => rw [updateLinesRows]; simp [updOne, ih]

theorem updateParams_count (prev cur : String) (ps : List (String × PValue)) :
    (updateParams prev cur ps).2 =
      (ps.filter (fun kv => kv.2 == PValue.pStr prev)).length := by
  induction ps with
  | nil => simp [updateParams]
  | cons kv rest ih =>
      obtain ⟨k, v⟩ := kv
      rw [updateParams]
      by_cases hv : (v == PValue.pStr prev) = true
      · simp [hv, ih]
      · simp only [Bool.not_eq_true] at hv
        simp [hv, ih]

theorem updateLinesRows_count (itemId : Nat) (prev cur : String) :
    ∀ (k : Nat) (l : List Node), sizeL l ≤ k →
      (updateLinesRows itemId prev cur l).2 = lineRefCount itemId prev l := by
  intro k
  induction k with
  | zero =>
      intro l hl
      cases l with
      | nil => simp [updateLinesRows, lineRefCount]
      | cons c cs =>
          exfalso
          rw [sizeL_cons] at hl
          have := sizeN_pos c
          omega
  | succ k ih =>
      intro l hl
      cases l with
      | nil => simp [updateLinesRows, lineRefCount]
      | cons c cs =>
          rw [sizeL_cons] at hl
          cases c with
          | mk i t cu co f p gs =>
              rw [sizeN_eq] at hl
              have hkids := ih gs (by omega)
              have hrest := ih cs (by omega)
              have hflat : lineRefCount itemId prev (Node.mk i t cu co f p gs :: cs) =
                  (match p with
                    | .index _ ps =>
                        if i == itemId then 0
                        else (ps.filter (fun kv => kv.2 == PValue.pStr prev)).length
                    | _ => 0) + (lineRefCount itemId prev gs + lineRefCount itemId prev cs) := by
                rw [lineRefCount, allNodesRows_cons]
                simp only [Node.children_mk, List.map_cons, List.map_append, List.sum_cons,
                  List.sum_append, Node.payload_mk, Node.nid_mk]
                rfl
              rw [hflat]
              cases p with
              | index tn ps =>
                  by_cases hid : (i == itemId) = true
                  · rw [updateLinesRows]
                    simp only [hid, if_true]
                    simp [hkids, hrest]
                  · simp only [Bool.not_eq_true] at hid
                    rw [updateLinesRows]
                    simp only [hid, Bool.false_eq_true, if_false]
                    simp [hkids, hrest, updateParams_count]
                    omega
              | callable a => rw [updateLinesRows]; simp [hkids, hrest]
              | ticker a => rw [updateLinesRows]; simp [hkids, hrest]
              | field fid => rw [updateLinesRows]; simp [hkids, hrest]

theorem updOne_children (itemId : Nat) (prev cur : String) (n : Node) :
    (updOne itemId prev cur n).children = (updateLinesRows itemId prev cur n.children).1 := by
  cases n with
  | mk i t cu co f p gs => cases p <;> rfl

theorem updateLinesRows_path (itemId : Nat) (prev cur : String) :
    ∀ (p : List Nat) (l : List Node) (n : Node), getN p l = some n →
      getN p (updateLinesRows itemId prev cur l).1 = some (updOne itemId prev cur n) := by
  intro p
  induction p with
  | nil => intro l n h; simp at h
  | cons j rest ih =>
      intro l n h
      cases rest with
      | nil =>
          rw [getN_single] at h
          rw [updateLinesRows_fst, getN_single, List.getElem?_map, h, Option.map_some']
      | cons r rest' =>
          cases hj : l[j]? with
          | none => rw [getN_cons_none _ _ _ _ hj] at h; cases h
          | some c =>
              rw [getN_cons_some _ _ _ _ _ hj] at h
              have hc := ih c.children n h
              rw [updateLinesRows_fst, getN_cons_some _ _ _ _ (updOne itemId prev cur c)
                (by rw [List.getElem?_map, hj, Option.map_some'])]
              rw [updOne_children]
              exact hc

/-- C7: `updateLines(item, previous, current)` rewrites to the new name
exactly the parameter entries equal to the old name, on every
parameters-bearing node of the renamed item's root subtree other than the
renamed item itself; it changes nothing else (identity, text, markers,
variant and child count of every node are preserved, and non-matching
entries and keys are untouched); and it returns the exact number of
rewritten entries. -/
theorem updateLines_rewrites_and_counts (itemId : Nat) (prev cur : String) (root : Node) :
    ((updateLines itemId prev cur root).2 = lineRefCount itemId prev root.children) ∧
    ((updateLines itemId prev cur root).1.nid = root.nid ∧
      (updateLines itemId prev cur root).1.text = root.text ∧
      (updateLines itemId prev cur root).1.payload = root.payload) ∧
    (∀ (p : List Nat) (n : Node), getN p root.children = some n →
      ∃ m, getN p (updateLines itemId prev cur root).1.children = some m ∧
        m.nid = n.nid ∧ m.text = n.text ∧ m.cutSource = n.cutSource ∧
        m.copySource = n.copySource ∧ m.fore = n.fore ∧
        m.children.length = n.children.length ∧
        m.payload = (match n.payload with
          | .index tn ps =>
              .index tn (if n.nid == itemId then ps else (updateParams prev cur ps).1)
          | q => q)) ∧
    (∀ (ps : List (String × PValue)) (k : Nat),
      ((updateParams prev cur ps).1)[k]? =
        (ps[k]?).map (fun kv =>
          if kv.2 == PValue.pStr prev then (kv.1, PValue.pStr cur) else kv)) := by
  obtain ⟨i, t, cu, co, f, pl, cs⟩ := root
  refine ⟨?_, ⟨rfl, rfl, rfl⟩, ?_, ?_⟩
  · exact updateLinesRows_count itemId prev cur (sizeL cs) cs (Nat.le_refl _)
  · intro p n h
    simp only [Node.children_mk] at h
    have := updateLinesRows_path itemId prev cur p cs n h
    refine ⟨updOne itemId prev cur n, by simpa [updateLines] using this, ?_⟩
    cases n with
    | mk i' t' cu' co' f' p' gs' =>
        cases p' with
        | index tn ps =>
            refine ⟨rfl, rfl, rfl, rfl, rfl, ?_, ?_⟩
            · simp [updOne, updateLinesRows_fst]
            · simp [updOne]
        | callable a => exact ⟨rfl, rfl, rfl, rfl, rfl, by simp [updOne, updateLinesRows_fst], rfl⟩
        | ticker a => exact ⟨rfl, rfl, rfl, rfl, rfl, by simp [updOne, updateLinesRows_fst], rfl⟩
        | field fid => exact ⟨rfl, rfl, rfl, rfl, rfl, by simp [updOne, updateLinesRows_fst], rfl⟩
  · intro ps k
    induction ps generalizing k with
    | nil => simp [updateParams]
    | cons kv rest ih =>
        obtain ⟨ky, v⟩ := kv
        by_cases hv : v = PValue.pStr prev
        · subst hv
          cases k with
          | zero => simp [updateParams]
          | succ k' => simpa [updateParams] using ih k'
        · have hvb : (v == PValue.pStr prev) = false := by simpa using hv
          cases k with
          | zero => simp [updateParams, hvb, hv]
          | succ k' => simpa [updateParams, hvb] using ih k'

/-- A concrete subtree for the rename-propagation scenario: a ticker whose
field carries two indexes — the renamed index `"X"` (identity 1) and a
sibling index whose `parameters` hold one line reference to `"X"`. -/
def exRoot7 : Node :=
  .mk 10 "ACME" false false .normal (.ticker ⟨7, "ACME", "", "", "", "", 0, ""⟩)
    [.mk 11 "bidSize" false false .normal (.field 0)
      [.mk 1 "X" false false .normal (.index "SMA" []) [],
       .mk 2 "B" false false .normal (.index "EMA" [("series", .pStr "X")]) []]]

/-- Witness for C7: renaming the index `"X"` (identity 1) to `"Y"` rewrites
the one matching parameter entry of its sibling and reports exactly one
rewritten reference. -/
theorem updateLines_rewrites_and_counts_witness :
    (updateLines 1 "X" "Y" exRoot7).2 = lineRefCount 1 "X" exRoot7.children ∧
    lineRefCount 1 "X" exRoot7.children = 1 ∧
    getN [0, 1] (updateLines 1 "X" "Y" exRoot7).1.children =
      some (.mk 2 "B" false false .normal (.index "EMA" [("series", .pStr "Y")]) []) := by
  refine ⟨(updateLines_rewrites_and_counts 1 "X" "Y" exRoot7).1, ?_, ?_⟩
  · simp [exRoot7, lineRefCount, allNodesRows]
  · simp [exRoot7, updateLines, updateLinesRows, updateParams, getN]

/-! ### Auto-naming (`TickerDesigner.maybeChangeIndexName`)

After an index is retyped, if its display name is the placeholder default
(`'Unknown'`), empty, or starts with `'<previousTypeName>-'`, the code
collects `self.model.findItems(item.typeName, MatchStartsWith |
MatchRecursive)` — every item in the model whose display text merely STARTS
WITH the new type name — keeps those in the same root, parses
`int(name.split('-')[1])` (the characters between the first and second
dash), skipping `ValueError`/`IndexError`, and renames the item to
`'<typeName>-<1 + highest parsed value>'` (at least `'<typeName>-1'`).
String primitives are modelled on character lists to mirror Python's
`str.split`, `str.startswith` and `int`. -/

def defaultText : String := "Unknown"

/-- Python `s1.startswith(s2)`. -/
def startsWithS (nm pre : String) : Bool := List.isPrefixOf pre.data nm.data

/-- Python `s.split('-')`: splits at every dash, keeping empty groups. -/
def splitOnDash : List Char → List (List Char)
  | [] => [[]]
  | c :: rest =>
      let r := splitOnDash rest
      if c = '-' then [] :: r
      else
        match r with
        | [] => [[c]]
        | g :: gs => (c :: g) :: gs

/-- Digit-string value, or `none` when not entirely digits (or empty). -/
def digitsVal (cs : List Char) : Option Nat :=
  if cs.isEmpty then none
  else if cs.all Char.isDigit then
    some (cs.foldl (fun a c => a * 10 + (c.toNat - 48)) 0)
  else none

/-- Python `int(s)` on a character list: optional surrounding whitespace,
optional sign, digits; anything else raises `ValueError` (`none`). -/
def pyIntChars (cs : List Char) : Option Int :=
  match (cs.dropWhile Char.isWhitespace).reverse.dropWhile Char.isWhitespace |>.reverse with
  | '-' :: rest => (digitsVal rest).map (fun n => -(n : Int))
  | '+' :: rest => (digitsVal rest).map (fun n => (n : Int))
  | other => (digitsVal other).map (fun n => (n : Int))

/-- Python `name.split('-')[1]` (IndexError when there is no dash). -/
def secondOf (nm : String) : Option (List Char) :=
  match splitOnDash nm.data with
  | _ :: second :: _ => some second
  | _ => none

/-- Value a model item contributes to the suffix scan: its text must start
with the type name (`MatchStartsWith`), and the slice between the first and
second dash must parse as an int. -/
def matchValue (typeName nm : String) : Option Int :=
  if startsWithS nm typeName then
    match secondOf nm with
    | some part => pyIntChars part
    | none => none
  else none

/-- The suffix computed by `maybeChangeIndexName`'s loop: starting from 1,
`suffix = max(suffix, offset + 1)` over every matching item of the same
root subtree (the root item itself included — `item.root == match.root`
also holds for the root). -/
def autoSuffix (root : Node) (typeName : String) : Int :=
  (root :: allNodesRows root.children).foldl
    (fun acc n =>
      match matchValue typeName n.text with
      | some v => max acc (v + 1)
      | none => acc) 1

/-- Translation of `TickerDesigner.maybeChangeIndexName(item, previous)`:
`current` is the name widget's text (kept in sync with the item's display
text), `typeName` the item's just-assigned type name, `previous` the old
type name.  Returns the new name when one is assigned. -/
def maybeChangeIndexName (root : Node) (current typeName previous : String) :
    Option String :=
  if current == defaultText || current == "" || startsWithS current (previous ++ "-") then
    some (typeName ++ "-" ++ toString (autoSuffix root typeName))
  else none

/-- The claim's matching rule: only names of the exact form
`<typeName>-<integer>` count. -/
def claimMatchValue (typeName nm : String) : Option Int :=
  if startsWithS nm (typeName ++ "-") then
    pyIntChars (nm.data.drop (typeName.data.length + 1))
  else none

/-- The claim's suffix: 1 + the maximum over names matching
`<typeName>-<integer>` in the same root subtree, defaulting to 1. -/
def claimSuffix (root : Node) (typeName : String) : Int :=
  ((root :: allNodesRows root.children).filterMap
    (fun n => claimMatchValue typeName n.text)).foldl (fun a v => max a (v + 1)) 1

/-- The name the claim predicts. -/
def claimAutoName (root : Node) (typeName : String) : String :=
  typeName ++ "-" ++ toString (claimSuffix root typeName)

/-- A subtree on which the code and the claim disagree: the retyped index
(name still the placeholder) lives beside an index named `"Foobar-3"`,
whose text starts with `"Foo"` and parses to 3 between its dashes, although
it does not match `"Foo-<integer>"`. -/
def exRoot8 : Node :=
  .mk 20 "ACME" false false .normal (.ticker ⟨8, "ACME", "", "", "", "", 0, ""⟩)
    [.mk 21 "bidSize" false false .normal (.field 0)
      [.mk 22 "Unknown" false false .normal (.index "Foo" []) [],
       .mk 23 "Foobar-3" false false .normal (.index "EMA" []) []]]

/-- Counterexample for C8: retyping the placeholder-named index to `"Foo"`
next to a node named `"Foobar-3"` yields `"Foo-4"`, while the claim's rule
(`1 + max` over names matching `"Foo-<integer>"`, defaulting to 1)
predicts `"Foo-1"`: the code matches by prefix and parses between the
first and second dash. -/
theorem autoname_counterexample :
    maybeChangeIndexName exRoot8 "Unknown" "Foo" "SMA" = some "Foo-4" ∧
    claimAutoName exRoot8 "Foo" = "Foo-1" := by
  have h : allNodesRows exRoot8.children =
      [.mk 21 "bidSize" false false .normal (.field 0)
        [.mk 22 "Unknown" false false .normal (.index "Foo" []) [],
         .mk 23 "Foobar-3" false false .normal (.index "EMA" []) []],
       .mk 22 "Unknown" false false .normal (.index "Foo" []) [],
       .mk 23 "Foobar-3" false false .normal (.index "EMA" []) []] := by
    simp [exRoot8, allNodesRows]
  constructor
  · rw [maybeChangeIndexName, autoSuffix, h]
    decide
  · rw [claimAutoName, claimSuffix, h]
    decide

theorem foldl_suffix_eq_filterMap (tn : String) (l : List Node) :
    ∀ acc : Int,
      l.foldl (fun a n =>
        match matchValue tn n.text with
        | some v => max a (v + 1)
        | none => a) acc =
      (l.filterMap (fun n => (matchValue tn n.text).map (· + 1))).foldl max acc := by
  induction l with
  | nil => intro acc; simp
  | cons c cs ih =>
      intro acc
      cases hm : matchValue tn c.text with
      | none => simp [hm, ih]
      | some v => simp [hm, ih]

theorem autoSuffix_eq_filterMap (root : Node) (typeName : String) :
    autoSuffix root typeName =
      ((root :: allNodesRows root.children).filterMap
        (fun n => (matchValue typeName n.text).map (· + 1))).foldl max 1 := by
  rw [autoSuffix]
  exact foldl_suffix_eq_filterMap typeName _ 1

/-- C8 (amended): when the retyped index's name is the placeholder default,
empty, or starts with `"<previousTypeName>-"`, the assigned name is
`"<newTypeName>-<N>"` where `N` is the maximum of 1 and `1 + v` over every
value `v` parsed from the dash-split second component of a node text in the
same root subtree that starts with the new type name. -/
theorem autoname_assigns_max_suffix (root : Node) (current typeName previous : String)
    (htrig : current = defaultText ∨ current = "" ∨
      startsWithS current (previous ++ "-") = true) :
    maybeChangeIndexName root current typeName previous =
      some (typeName ++ "-" ++ toString
        (((root :: allNodesRows root.children).filterMap
          (fun n => (matchValue typeName n.text).map (· + 1))).foldl max 1)) := by
  rw [maybeChangeIndexName, if_pos, ← autoSuffix_eq_filterMap]
  rcases htrig with h | h | h
  · simp [h]
  · simp [h]
  · simp [h]

/-- Witness for C8's amended rule, on the claim's own example: two nodes
named `"Foo-1"` and `"Foo-3"` exist and retyping the placeholder-named
index to `"Foo"` yields `"Foo-4"`. -/
theorem autoname_assigns_max_suffix_witness :
    maybeChangeIndexName
      (.mk 30 "ACME" false false .normal (.ticker ⟨9, "ACME", "", "", "", "", 0, ""⟩)
        [.mk 31 "bidSize" false false .normal (.field 0)
          [.mk 32 "Unknown" false false .normal (.index "Foo" []) [],
           .mk 33 "Foo-1" false false .normal (.index "Foo" []) [],
           .mk 34 "Foo-3" false false .normal (.index "Foo" []) []]])
      "Unknown" "Foo" "SMA" = some "Foo-4" := by
  rw [autoname_assigns_max_suffix _ "Unknown" "Foo" "SMA" (Or.inl (by rfl))]
  have h : allNodesRows
      [Node.mk 31 "bidSize" false false .normal (.field 0)
        [.mk 32 "Unknown" false false .normal (.index "Foo" []) [],
         .mk 33 "Foo-1" false false .normal (.index "Foo" []) [],
         .mk 34 "Foo-3" false false .normal (.index "Foo" []) []]] =
      [.mk 31 "bidSize" false false .normal (.field 0)
        [.mk 32 "Unknown" false false .normal (.index "Foo" []) [],
         .mk 33 "Foo-1" false false .normal (.index "Foo" []) [],
         .mk 34 "Foo-3" false false .normal (.index "Foo" []) []],
       .mk 32 "Unknown" false false .normal (.index "Foo" []) [],
       .mk 33 "Foo-1" false false .normal (.index "Foo" []) [],
       .mk 34 "Foo-3" false false .normal (.index "Foo" []) []] := by
    simp [allNodesRows]
  rw [Node.children_mk, h]
  decide

/-! ### Tree surgery

The clipboard operations act on the live `QStandardItemModel` tree:
`takeChild`/`setChild`/`removeRow` surgery expressed through row paths.
`modIdx` rewrites one row of a sibling list; `modifyAtPath` rewrites the
item at a path; `removeAtPath` deletes the row at a path. -/

@[simp] theorem Node.children_withChildren (n : Node) (cs : List Node) :
    (n.withChildren cs).children = cs := by cases n; rfl

@[simp] theorem Node.nid_withChildren (n : Node) (cs : List Node) :
    (n.withChildren cs).nid = n.nid := by cases n; rfl

@[simp] theorem Node.text_withChildren (n : Node) (cs : List Node) :
    (n.withChildren cs).text = n.text := by cases n; rfl

@[simp] theorem Node.cutSource_withChildren (n : Node) (cs : List Node) :
    (n.withChildren cs).cutSource = n.cutSource := by cases n; rfl

@[simp] theorem Node.copySource_withChildren (n : Node) (cs : List Node) :
    (n.withChildren cs).copySource = n.copySource := by cases n; rfl

@[simp] theorem Node.fore_withChildren (n : Node) (cs : List Node) :
    (n.withChildren cs).fore = n.fore := by cases n; rfl

@[simp] theorem Node.payload_withChildren (n : Node) (cs : List Node) :
    (n.withChildren cs).payload = n.payload := by cases n; rfl

def modIdx : List Node → Nat → (Node → Node) → List Node
  | [], _, _ => []
  | c :: cs, 0, g => g c :: cs
  | c :: cs, j + 1, g => c :: modIdx cs j g

theorem modIdx_getElem_self (ns : List Node) (j : Nat) (g : Node → Node) :
    (modIdx ns j g)[j]? = (ns[j]?).map g := by
  induction ns generalizing j with
  | nil => simp [modIdx]
  | cons c cs ih =>
      cases j with
      | zero => simp [modIdx]
      | succ j' => simpa [modIdx] using ih j'

theorem modIdx_getElem_ne (ns : List Node) (j k : Nat) (g : Node → Node) (h : k ≠ j) :
    (modIdx ns j g)[k]? = ns[k]? := by
  induction ns generalizing j k with
  | nil => simp [modIdx]
  | cons c cs ih =>
      cases j with
      | zero =>
          cases k with
          | zero => exact absurd rfl h
          | succ k' => simp [modIdx]
      | succ j' =>
          cases k with
          | zero => simp [modIdx]
          | succ k' => simpa [modIdx] using ih j' k' (by omega)

theorem modIdx_map_nid (ns : List Node) (j : Nat) (g : Node → Node)
    (hg : ∀ x, (g x).nid = x.nid) :
    (modIdx ns j g).map Node.nid = ns.map Node.nid := by
  induction ns generalizing j with
  | nil => simp [modIdx]
  | cons c cs ih =>
      cases j with
      | zero => simp [modIdx, hg]
      | succ j' => simp [modIdx, ih j']

def modifyAtPath : List Nat → List Node → (Node → Node) → List Node
  | [], ns, _ => ns
  | j :: rest, ns, g =>
      match rest with
      | [] => modIdx ns j g
      | r :: rest' =>
          modIdx ns j (fun n => n.withChildren (modifyAtPath (r :: rest') n.children g))

theorem modifyAtPath_single (j : Nat) (ns : List Node) (g : Node → Node) :
    modifyAtPath [j] ns g = modIdx ns j g := rfl

theorem modifyAtPath_cons (j r : Nat) (rest : List Nat) (ns : List Node) (g : Node → Node) :
    modifyAtPath (j :: r :: rest) ns g =
      modIdx ns j (fun n => n.withChildren (modifyAtPath (r :: rest) n.children g)) := rfl

def removeAtPath : List Nat → List Node → List Node
  | [], ns => ns
  | j :: rest, ns =>
      match rest with
      | [] => ns.eraseIdx j
      | r :: rest' => modIdx ns j (fun n => n.withChildren (removeAtPath (r :: rest') n.children))

theorem removeAtPath_single (j : Nat) (ns : List Node) :
    removeAtPath [j] ns = ns.eraseIdx j := rfl

theorem removeAtPath_cons (j r : Nat) (rest : List Nat) (ns : List Node) :
    removeAtPath (j :: r :: rest) ns =
      modIdx ns j (fun n => n.withChildren (removeAtPath (r :: rest) n.children)) := rfl

theorem getN_modifyAtPath_self (p : List Nat) :
    ∀ (ns : List Node) (g : Node → Node),
      getN p (modifyAtPath p ns g) = (getN p ns).map g := by
  induction p with
  | nil => intro ns g; simp
  | cons j rest ih =>
      intro ns g
      cases rest with
      | nil => simp [modifyAtPath_single, modIdx_getElem_self]
      | cons r rest' =>
          rw [modifyAtPath_cons]
          cases hj : ns[j]? with
          | none =>
              rw [getN_cons_none _ _ _ _ (by rw [modIdx_getElem_self, hj]; rfl),
                getN_cons_none _ _ _ _ hj]
              rfl
          | some n =>
              rw [getN_cons_some _ _ _ _ _ (by rw [modIdx_getElem_self, hj]; rfl),
                getN_cons_some _ _ _ _ _ hj, Node.children_withChildren]
              exact ih n.children g

theorem getN_modifyAtPath_other (p : List Nat) :
    ∀ (q : List Nat), ¬ List.IsPrefix p q → ¬ List.IsPrefix q p →
      ∀ (ns : List Node) (g : Node → Node),
        getN q (modifyAtPath p ns g) = getN q ns := by
  induction p with
  | nil => intro q hp _ ns g; exact absurd (List.nil_prefix) hp
  | cons j rest ih =>
      intro q hp hq ns g
      cases q with
      | nil => exact absurd (List.nil_prefix) hq
      | cons x qrest =>
          by_cases hjx : j = x
          · subst hjx
            have hrest : ¬ List.IsPrefix rest qrest := by
              intro hc; exact hp (List.cons_prefix_cons.mpr ⟨rfl, hc⟩)
            have hqrest : ¬ List.IsPrefix qrest rest := by
              intro hc; exact hq (List.cons_prefix_cons.mpr ⟨rfl, hc⟩)
            cases rest with
            | nil => exact absurd List.nil_prefix hrest
            | cons r rest' =>
                cases qrest with
                | nil => exact absurd List.nil_prefix hqrest
                | cons y qrest' =>
                    rw [modifyAtPath_cons]
                    cases hj : ns[j]? with
                    | none =>
                        rw [getN_cons_none _ _ _ _ (by rw [modIdx_getElem_self, hj]; rfl),
                          getN_cons_none _ _ _ _ hj]
                    | some n =>
                        rw [getN_cons_some _ _ _ _ _ (by rw [modIdx_getElem_self, hj]; rfl),
                          getN_cons_some _ _ _ _ _ hj, Node.children_withChildren]
                        exact ih (y :: qrest') hrest hqrest n.children g
          · have hget : ∀ (f : Node → Node), (modIdx ns j f)[x]? = ns[x]? :=
              fun f => modIdx_getElem_ne ns j x f (fun hc => hjx hc.symm)
            cases rest with
            | nil =>
                rw [modifyAtPath_single]
                cases qrest with
                | nil => rw [getN_single, getN_single, hget]
                | cons y qrest' =>
                    cases hx : ns[x]? with
                    | none =>
                        rw [getN_cons_none _ _ _ _ (by rw [hget, hx]),
                          getN_cons_none _ _ _ _ hx]
                    | some n =>
                        rw [getN_cons_some _ _ _ _ _ (by rw [hget, hx]),
                          getN_cons_some _ _ _ _ _ hx]
            | cons r rest' =>
                rw [modifyAtPath_cons]
                cases qrest with
                | nil => rw [getN_single, getN_single, hget]
                | cons y qrest' =>
                    cases hx : ns[x]? with
                    | none =>
                        rw [getN_cons_none _ _ _ _ (by rw [hget, hx]),
                          getN_cons_none _ _ _ _ hx]
                    | some n =>
                        rw [getN_cons_some _ _ _ _ _ (by rw [hget, hx]),
                          getN_cons_some _ _ _ _ _ hx]

theorem getN_modifyAtPath_above (q : List Nat) :
    ∀ (p : List Nat) (ns : List Node) (g : Node → Node),
      (∀ x, (g x).nid = x.nid) → List.IsPrefix q p → q ≠ p →
      ∀ m, getN q ns = some m →
      ∃ mm, getN q (modifyAtPath p ns g) = some mm ∧
        mm.nid = m.nid ∧ mm.text = m.text ∧ mm.cutSource = m.cutSource ∧
        mm.copySource = m.copySource ∧ mm.fore = m.fore ∧ mm.payload = m.payload ∧
        mm.children.map Node.nid = m.children.map Node.nid := by
  induction q with
  | nil => intro p ns g hg hpre hne m hm; simp at hm
  | cons k qrest ih =>
      intro p ns g hg hpre hne m hm
      obtain ⟨tail, rfl⟩ := hpre
      have htail : tail ≠ [] := by
        intro hc
        subst hc
        exact hne (by simp)
      cases qrest with
      | nil =>
          rw [getN_single] at hm
          cases tail with
          | nil => exact absurd rfl htail
          | cons r tail' =>
              rw [show ([k] ++ (r :: tail') : List Nat) = k :: r :: tail' from rfl,
                modifyAtPath_cons]
              refine ⟨m.withChildren (modifyAtPath (r :: tail') m.children g), ?_, by simp, by simp,
                by simp, by simp, by simp, by simp, ?_⟩
              · rw [getN_single, modIdx_getElem_self, hm]; rfl
              · rw [Node.children_withChildren]
                cases tail' with
                | nil =>
                    rw [modifyAtPath_single]
                    exact modIdx_map_nid m.children r g hg
                | cons r2 tail2 =>
                    rw [modifyAtPath_cons]
                    exact modIdx_map_nid m.children r _ (fun x => by simp)
      | cons k2 qrest' =>
          cases tail with
          | nil => exact absurd rfl htail
          | cons r tail' =>
              cases hk : ns[k]? with
              | none => rw [getN_cons_none _ _ _ _ hk] at hm; cases hm
              | some n =>
                  rw [getN_cons_some _ _ _ _ _ hk] at hm
                  rw [show ((k :: k2 :: qrest') ++ r :: tail' : List Nat) =
                    k :: k2 :: (qrest' ++ (r :: tail')) from rfl, modifyAtPath_cons]
                  have hne2 : (k2 :: qrest' : List Nat) ≠ k2 :: (qrest' ++ (r :: tail')) := by
                    intro hc
                    have := congrArg List.length hc
                    simp at this
                  have hih := ih (k2 :: (qrest' ++ (r :: tail'))) n.children g hg
                    ⟨r :: tail', by simp⟩ hne2 m hm
                  obtain ⟨mm, hmm, hfacts⟩ := hih
                  refine ⟨mm, ?_, hfacts⟩
                  rw [getN_cons_some _ _ _ _ _ (by rw [modIdx_getElem_self, hk]; rfl),
                    Node.children_withChildren]
                  exact hmm

theorem getN_removeAtPath_parent (base : List Nat) :
    ∀ (j : Nat) (ns : List Node) (m : Node), base ≠ [] → getN base ns = some m →
      getN base (removeAtPath (base ++ [j]) ns) =
        some (m.withChildren (m.children.eraseIdx j)) := by
  induction base with
  | nil => intro j ns m hne _; exact absurd rfl hne
  | cons k brest ih =>
      intro j ns m _ hm
      cases brest with
      | nil =>
          rw [getN_single] at hm
          rw [show ([k] ++ [j] : List Nat) = k :: [j] from rfl, removeAtPath_cons,
            getN_single, modIdx_getElem_self, hm]
          rfl
      | cons k2 brest' =>
          cases hk : ns[k]? with
          | none => rw [getN_cons_none _ _ _ _ hk] at hm; cases hm
          | some n =>
              rw [getN_cons_some _ _ _ _ _ hk] at hm
              rw [show ((k :: k2 :: brest') ++ [j] : List Nat) =
                k :: ((k2 :: brest') ++ [j]) from rfl]
              have : (k2 :: brest') ++ [j] = k2 :: (brest' ++ [j]) := rfl
              rw [this, removeAtPath_cons,
                getN_cons_some _ _ _ _ _ (by rw [modIdx_getElem_self, hk]; rfl),
                Node.children_withChildren]
              have hih := ih j n.children m (by simp) hm
              rw [show (k2 :: brest') ++ [j] = k2 :: (brest' ++ [j]) from rfl] at hih
              exact hih

theorem getN_append_last (q : List Nat) :
    ∀ (j : Nat) (ns : List Node) (m : Node), getN q ns = some m →
      getN (q ++ [j]) ns = m.children[j]? := by
  induction q with
  | nil => intro j ns m hm; simp at hm
  | cons k qrest ih =>
      intro j ns m hm
      cases qrest with
      | nil =>
          rw [getN_single] at hm
          rw [show ([k] ++ [j] : List Nat) = k :: [j] from rfl,
            getN_cons_some _ _ _ _ _ hm, getN_single]
      | cons k2 qrest' =>
          cases hk : ns[k]? with
          | none => rw [getN_cons_none _ _ _ _ hk] at hm; cases hm
          | some n =>
              rw [getN_cons_some _ _ _ _ _ hk] at hm
              rw [show ((k :: k2 :: qrest') ++ [j] : List Nat) =
                k :: ((k2 :: qrest') ++ [j]) from rfl]
              rw [show (k2 :: qrest') ++ [j] = k2 :: (qrest' ++ [j]) from rfl]
              rw [getN_cons_some _ _ _ _ _ hk]
              have hih := ih j n.children m hm
              rw [show (k2 :: qrest') ++ [j] = k2 :: (qrest' ++ [j]) from rfl] at hih
              exact hih

/-- Where the node formerly at `q` sits after the row at `p` is removed
(undefined — unused — when `q` lies inside the removed subtree). -/
def shiftAfterRemove : List Nat → List Nat → List Nat
  | [], q => q
  | _ :: _, [] => []
  | j :: rest, x :: r =>
      match rest with
      | [] => if j < x then (x - 1) :: r else x :: r
      | _ :: _ => if j = x then x :: shiftAfterRemove rest r else x :: r

theorem shiftAfterRemove_single (j x : Nat) (r : List Nat) :
    shiftAfterRemove [j] (x :: r) = if j < x then (x - 1) :: r else x :: r := rfl

theorem shiftAfterRemove_cons (j r2 : Nat) (rest : List Nat) (x : Nat) (q : List Nat) :
    shiftAfterRemove (j :: r2 :: rest) (x :: q) =
      if j = x then x :: shiftAfterRemove (r2 :: rest) q else x :: q := rfl

theorem getN_removeAtPath_other (p : List Nat) :
    ∀ (q : List Nat), ¬ List.IsPrefix p q → ¬ List.IsPrefix q p →
      ∀ (ns : List Node),
        getN (shiftAfterRemove p q) (removeAtPath p ns) = getN q ns := by
  induction p with
  | nil => intro q hp _ _; exact absurd List.nil_prefix hp
  | cons j rest ih =>
      intro q hp hq ns
      cases q with
      | nil => exact absurd List.nil_prefix hq
      | cons x qrest =>
          cases rest with
          | nil =>
              have hjx : j ≠ x := by
                intro hc; subst hc
                exact hp ⟨qrest, rfl⟩
              rw [removeAtPath_single, shiftAfterRemove_single]
              by_cases hlt : j < x
              · rw [if_pos hlt]
                have hx1 : x - 1 + 1 = x := by omega
                have hget : (ns.eraseIdx j)[x - 1]? = ns[x]? := by
                  rw [List.getElem?_eraseIdx]
                  rw [if_neg (by omega), hx1]
                cases qrest with
                | nil => rw [getN_single, getN_single, hget]
                | cons y qrest' =>
                    cases hx : ns[x]? with
                    | none =>
                        rw [getN_cons_none _ _ _ _ (by rw [hget, hx]),
                          getN_cons_none _ _ _ _ hx]
                    | some n =>
                        rw [getN_cons_some _ _ _ _ _ (by rw [hget, hx]),
                          getN_cons_some _ _ _ _ _ hx]
              · rw [if_neg hlt]
                have hget : (ns.eraseIdx j)[x]? = ns[x]? := by
                  rw [List.getElem?_eraseIdx, if_pos (by omega)]
                cases qrest with
                | nil => rw [getN_single, getN_single, hget]
                | cons y qrest' =>
                    cases hx : ns[x]? with
                    | none =>
                        rw [getN_cons_none _ _ _ _ (by rw [hget, hx]),
                          getN_cons_none _ _ _ _ hx]
                    | some n =>
                        rw [getN_cons_some _ _ _ _ _ (by rw [hget, hx]),
                          getN_cons_some _ _ _ _ _ hx]
          | cons r rest' =>
              rw [removeAtPath_cons, shiftAfterRemove_cons]
              by_cases hjx : j = x
              · subst hjx
                rw [if_pos rfl]
                have hrtail : ¬ List.IsPrefix (r :: rest') qrest := by
                  intro hc; exact hp (List.cons_prefix_cons.mpr ⟨rfl, hc⟩)
                have hqtail : ¬ List.IsPrefix qrest (r :: rest') := by
                  intro hc; exact hq (List.cons_prefix_cons.mpr ⟨rfl, hc⟩)
                cases qrest with
                | nil => exact absurd List.nil_prefix hqtail
                | cons y qrest' =>
                    have hsne : shiftAfterRemove (r :: rest') (y :: qrest') ≠ [] := by
                      cases rest' with
                      | nil =>
                          rw [shiftAfterRemove_single]
                          split <;> simp
                      | cons a b =>
                          rw [shiftAfterRemove_cons]
                          split <;> simp
                    cases hs : shiftAfterRemove (r :: rest') (y :: qrest') with
                    | nil => exact absurd hs hsne
                    | cons s srest =>
                        cases hj : ns[j]? with
                        | none =>
                            rw [getN_cons_none _ _ _ _
                                (by rw [modIdx_getElem_self, hj]; rfl),
                              getN_cons_none _ _ _ _ hj]
                        | some n =>
                            rw [getN_cons_some _ _ _ _ _
                                (by rw [modIdx_getElem_self, hj]; rfl),
                              getN_cons_some _ _ _ _ _ hj, Node.children_withChildren]
                            have hih := ih (y :: qrest') hrtail hqtail n.children
                            rw [hs] at hih
                            exact hih
              · rw [if_neg hjx]
                have hget : ∀ (f : Node → Node), (modIdx ns j f)[x]? = ns[x]? :=
                  fun f => modIdx_getElem_ne ns j x f (fun hc => hjx hc.symm)
                cases qrest with
                | nil => rw [getN_single, getN_single, hget]
                | cons y qrest' =>
                    cases hx : ns[x]? with
                    | none =>
                        rw [getN_cons_none _ _ _ _ (by rw [hget, hx]),
                          getN_cons_none _ _ _ _ hx]
                    | some n =>
                        rw [getN_cons_some _ _ _ _ _ (by rw [hget, hx]),
                          getN_cons_some _ _ _ _ _ hx]

theorem shiftAfterRemove_parent (base : List Nat) :
    ∀ (j : Nat) (q : List Nat), List.IsPrefix q base →
      shiftAfterRemove (base ++ [j]) q = q := by
  induction base with
  | nil =>
      intro j q hq
      rw [List.prefix_nil.mp hq]
      rfl
  | cons k brest ih =>
      intro j q hq
      cases q with
      | nil => rfl
      | cons x qrest =>
          obtain ⟨hkx, hpre⟩ := List.cons_prefix_cons.mp hq
          rw [show ((k :: brest) ++ [j] : List Nat) = k :: (brest ++ [j]) from rfl]
          cases hb : brest ++ [j] with
          | nil => simp at hb
          | cons b brest2 =>
              rw [shiftAfterRemove_cons, if_pos hkx.symm, ← hb, ih j qrest hpre]

/-! ### Finding the clip item

The designer keeps the clip as an object reference (`self.clipItem`);
object identity is the `nid`, and `findById` recovers the referenced item
and its position by a pre-order scan.  With distinct identities — Python
guarantees them — the scan returns exactly the node's path. -/

def nidsOf (ns : List Node) : List Nat := (allNodesRows ns).map Node.nid

def consPath (j : Nat) :
    Option (List Nat × Node) → Option (List Nat × Node) → Option (List Nat × Node)
  | some qn, _ => some (j :: qn.1, qn.2)
  | none, alt => alt

theorem consPath_some (j : Nat) (qn : List Nat × Node) (alt : Option (List Nat × Node)) :
    consPath j (some qn) alt = some (j :: qn.1, qn.2) := rfl

theorem consPath_none (j : Nat) (alt : Option (List Nat × Node)) :
    consPath j none alt = alt := rfl

def findByIdRows (cid : Nat) : List Node → Nat → Option (List Nat × Node)
  | [], _ => none
  | .mk i t cu co f p gs :: cs, j =>
      if i == cid then some ([j], .mk i t cu co f p gs)
      else consPath j (findByIdRows cid gs 0) (findByIdRows cid cs (j + 1))

def findById (ns : List Node) (cid : Nat) : Option (List Nat × Node) :=
  findByIdRows cid ns 0

theorem findByIdRows_nil (cid j : Nat) : findByIdRows cid [] j = none := by
  rw [findByIdRows]

theorem findByIdRows_cons (cid i : Nat) (t : String) (cu co : Bool) (f : Fore)
    (p : Payload) (gs cs : List Node) (j : Nat) :
    findByIdRows cid (.mk i t cu co f p gs :: cs) j =
      if i == cid then some ([j], .mk i t cu co f p gs)
      else consPath j (findByIdRows cid gs 0) (findByIdRows cid cs (j + 1)) := by
  rw [findByIdRows]

theorem allNodesRows_append (l1 l2 : List Node) :
    allNodesRows (l1 ++ l2) = allNodesRows l1 ++ allNodesRows l2 := by
  induction l1 with
  | nil => simp
  | cons c cs ih =>
      rw [List.cons_append, allNodesRows_cons, allNodesRows_cons, ih]
      simp

theorem mem_allNodesRows_of_mem (ns : List Node) (c : Node) (h : c ∈ ns) :
    c ∈ allNodesRows ns := by
  induction ns with
  | nil => cases h
  | cons d ds ih =>
      rw [allNodesRows_cons]
      rcases List.mem_cons.mp h with rfl | h2
      · exact List.mem_cons_self _ _
      · exact List.mem_cons_of_mem _ (List.mem_append_right _ (ih h2))

theorem allNodesRows_children_subset (ns : List Node) (c : Node) (h : c ∈ ns) :
    ∀ x ∈ allNodesRows c.children, x ∈ allNodesRows ns := by
  induction ns with
  | nil => cases h
  | cons d ds ih =>
      intro x hx
      rw [allNodesRows_cons]
      rcases List.mem_cons.mp h with rfl | h2
      · exact List.mem_cons_of_mem _ (List.mem_append_left _ hx)
      · exact List.mem_cons_of_mem _ (List.mem_append_right _ (ih h2 x hx))

theorem getN_mem (p : List Nat) :
    ∀ (ns : List Node) (n : Node), getN p ns = some n → n ∈ allNodesRows ns := by
  induction p with
  | nil => intro ns n h; simp at h
  | cons x rest ih =>
      intro ns n h
      cases rest with
      | nil =>
          rw [getN_single] at h
          exact mem_allNodesRows_of_mem ns n (List.getElem?_mem h)
      | cons r rest2 =>
          cases hx : ns[x]? with
          | none => rw [getN_cons_none _ _ _ _ hx] at h; cases h
          | some c =>
              rw [getN_cons_some _ _ _ _ _ hx] at h
              exact allNodesRows_children_subset ns c (List.getElem?_mem hx) n
                (ih c.children n h)

theorem nidsOf_cons (c : Node) (cs : List Node) :
    nidsOf (c :: cs) = c.nid :: (nidsOf c.children ++ nidsOf cs) := by
  rw [nidsOf, allNodesRows_cons]
  simp [nidsOf]

theorem getN_cons_succ (x : Nat) (rest : List Nat) (c : Node) (cs : List Node) :
    getN ((x + 1) :: rest) (c :: cs) = getN (x :: rest) cs := by
  cases rest with
  | nil => rw [getN_single, getN_single]; simp
  | cons r rest2 =>
      cases hx : cs[x]? with
      | none =>
          rw [getN_cons_none _ _ _ _ hx, getN_cons_none _ _ _ _ (by simpa using hx)]
      | some n =>
          rw [getN_cons_some _ _ _ _ _ hx, getN_cons_some _ _ _ _ _ (by simpa using hx)]

theorem findByIdRows_none (cid : Nat) :
    ∀ (k : Nat) (ns : List Node), sizeL ns ≤ k → cid ∉ nidsOf ns →
      ∀ off, findByIdRows cid ns off = none := by
  intro k
  induction k with
  | zero =>
      intro ns hs hmem off
      cases ns with
      | nil => exact findByIdRows_nil cid off
      | cons c cs =>
          exfalso
          rw [sizeL_cons] at hs
          have := sizeN_pos c
          omega
  | succ k ih =>
      intro ns hs hmem off
      cases ns with
      | nil => exact findByIdRows_nil cid off
      | cons c cs =>
          rw [sizeL_cons] at hs
          rw [nidsOf_cons] at hmem
          simp only [List.mem_cons, List.mem_append] at hmem
          push_neg at hmem
          obtain ⟨hne, hgs, hcs⟩ := hmem
          obtain ⟨i, t, cu, co, f, p, gs⟩ := c
          rw [sizeN_eq] at hs
          simp only [Node.nid_mk, Node.children_mk] at hne hgs
          rw [findByIdRows_cons, if_neg (by simp [Ne.symm hne]),
            ih gs (by omega) hgs 0, consPath_none]
          exact ih cs (by omega) hcs (off + 1)

theorem findByIdRows_of_getN (cid : Nat) :
    ∀ (k : Nat) (ns : List Node), sizeL ns ≤ k →
      ∀ (x : Nat) (rest : List Nat) (n : Node) (off : Nat),
        (nidsOf ns).Nodup → getN (x :: rest) ns = some n → n.nid = cid →
        findByIdRows cid ns off = some ((x + off) :: rest, n) := by
  intro k
  induction k with
  | zero =>
      intro ns hs x rest n off _ hget _
      exfalso
      cases ns with
      | nil =>
          cases rest with
          | nil => rw [getN_single] at hget; simp at hget
          | cons r rest2 => rw [getN_cons_none _ _ _ _ (by simp)] at hget; cases hget
      | cons c cs =>
          rw [sizeL_cons] at hs
          have := sizeN_pos c
          omega
  | succ k ih =>
      intro ns hs x rest n off hnd hget hcid
      cases ns with
      | nil =>
          exfalso
          cases rest with
          | nil => rw [getN_single] at hget; simp at hget
          | cons r rest2 => rw [getN_cons_none _ _ _ _ (by simp)] at hget; cases hget
      | cons c cs =>
          rw [sizeL_cons] at hs
          rw [nidsOf_cons] at hnd
          have hndgs : (nidsOf c.children).Nodup :=
            ((List.nodup_cons.mp hnd).2).of_append_left
          have hndcs : (nidsOf cs).Nodup :=
            ((List.nodup_cons.mp hnd).2).of_append_right
          have hhead : c.nid ∉ nidsOf c.children ++ nidsOf cs :=
            (List.nodup_cons.mp hnd).1
          have hdisj : ∀ a, a ∈ nidsOf c.children → a ∉ nidsOf cs :=
            fun a ha => List.disjoint_of_nodup_append (List.nodup_cons.mp hnd).2 ha
          simp only [List.mem_append] at hhead
          push_neg at hhead
          obtain ⟨i, t, cu, co, f, p, gs⟩ := c
          simp only [Node.nid_mk, Node.children_mk] at hhead hndgs hdisj
          rw [sizeN_eq] at hs
          cases x with
          | zero =>
              cases rest with
              | nil =>
                  rw [getN_single] at hget
                  simp only [List.getElem?_cons_zero, Option.some.injEq] at hget
                  subst hget
                  have hic : i = cid := by simpa using hcid
                  rw [findByIdRows_cons, if_pos (by simp [hic])]
                  simp
              | cons r rest2 =>
                  rw [getN_cons_some 0 r rest2 _ (Node.mk i t cu co f p gs)
                    (by simp)] at hget
                  simp only [Node.children_mk] at hget
                  have hnidmem : n.nid ∈ nidsOf gs :=
                    List.mem_map_of_mem Node.nid (getN_mem _ gs n hget)
                  have hic : i ≠ cid := by
                    intro hc
                    apply hhead.1
                    rw [hc, ← hcid]
                    exact hnidmem
                  rw [findByIdRows_cons, if_neg (by simp [hic]),
                    ih gs (by omega) r rest2 n 0 hndgs hget hcid, consPath_some]
                  simp
          | succ y =>
              rw [getN_cons_succ] at hget
              have hnidmem : n.nid ∈ nidsOf cs :=
                List.mem_map_of_mem Node.nid (getN_mem _ cs n hget)
              have hic : i ≠ cid := by
                intro hc
                apply hhead.2
                rw [hc, ← hcid]
                exact hnidmem
              have hinner : findByIdRows cid gs 0 = none := by
                refine findByIdRows_none cid (sizeL gs) gs (Nat.le_refl _) ?_ 0
                intro hc
                exact hdisj cid hc (hcid ▸ hnidmem)
              rw [findByIdRows_cons, if_neg (by simp [hic]), hinner, consPath_none,
                ih cs (by omega) y rest n (off + 1) hndcs hget hcid,
                show y + (off + 1) = y + 1 + off from by omega]

theorem findById_of_getN (ns : List Node) (p : List Nat) (n : Node)
    (hnd : (nidsOf ns).Nodup) (hget : getN p ns = some n) :
    findById ns n.nid = some (p, n) := by
  cases p with
  | nil => simp at hget
  | cons x rest =>
      rw [findById, findByIdRows_of_getN n.nid (sizeL ns) ns (Nat.le_refl _) x rest n 0
        hnd hget rfl]
      simp

/-! ### The clip machine (`cut` / `copy` / `paste` / `delete` handlers)

Document state: the root rows, the `clipItem` reference (an object
identity), and a counter from which fresh Python object identities are
drawn.  `setCut`/`setCopy` set the booleans and paint the foreground;
`resetForeground` repaints only — it clears no boolean.  The delete handler
removes the selected row and NEVER touches `clipItem`. -/

structure DocSt where
  roots : List Node
  clip : Option Nat
  nextId : Nat

/-- Effect of `SchemaItem.setCut`: `cutSource = True`, `copySource = False`,
red foreground. -/
def setCutNode : Node → Node
  | .mk i t _ _ _ p cs => .mk i t true false .red p cs

/-- Effect of `SchemaItem.setCopy`: `copySource = True`, `cutSource =
False`, blue foreground. -/
def setCopyNode : Node → Node
  | .mk i t _ _ _ p cs => .mk i t false true .blue p cs

/-- Effect of `SchemaItem.resetForeground`: the palette brush is restored;
the `cutSource`/`copySource` booleans are left as they are. -/
def setNormalFore : Node → Node
  | .mk i t cu co _ p cs => .mk i t cu co .normal p cs

/-- Application of `resetForeground` through the clip reference: repaint
the item whose identity is the stored one, wherever it sits (a no-op when
the referenced item is no longer in the tree). -/
def resetForeRows (cid : Nat) : List Node → List Node
  | [] => []
  | .mk i t cu co f p gs :: cs =>
      .mk i t cu co (if i == cid then .normal else f) p (resetForeRows cid gs)
        :: resetForeRows cid cs

/-- Translation of `on_actionCut_triggered` with the selection at `p`: a
no-op unless the action is enabled (`item.canCut()`); otherwise the
previous clip item's foreground is reset, the clip reference moves to the
selected item, and `setCut` marks it. -/
def cutOp (st : DocSt) (p : List Nat) : DocSt :=
  match getN p st.roots with
  | none => st
  | some n =>
      if canCut n.variant then
        let r1 := match st.clip with
          | some cid => resetForeRows cid st.roots
          | none => st.roots
        { roots := modifyAtPath p r1 setCutNode, clip := some n.nid, nextId := st.nextId }
      else st

/-- Translation of `on_actionCopy_triggered`, symmetric to `cutOp`. -/
def copyOp (st : DocSt) (p : List Nat) : DocSt :=
  match getN p st.roots with
  | none => st
  | some n =>
      if canCopy n.variant then
        let r1 := match st.clip with
          | some cid => resetForeRows cid st.roots
          | none => st.roots
        { roots := modifyAtPath p r1 setCopyNode, clip := some n.nid, nextId := st.nextId }
      else st

/-- Translation of `on_actionDelete_triggered` with the selection at `p`:
`model.removeRow(index.row(), index.parent())` removes the row and its
subtree; the handler clears the selection and the edit pointer but does
not touch `self.clipItem`. -/
def deleteOp (st : DocSt) (p : List Nat) : DocSt :=
  match getN p st.roots with
  | none => st
  | some _ => { roots := removeAtPath p st.roots, clip := st.clip, nextId := st.nextId }

mutual

/-- Fresh object identities for a clone: Python allocates new objects, so
the pasted copy's nodes receive identities from the counter. -/
def renumber : Node → Nat → Node × Nat
  | .mk _ t cu co f p gs, k =>
      let r := renumberRows gs (k + 1)
      (.mk k t cu co f p r.1, r.2)

def renumberRows : List Node → Nat → List Node × Nat
  | [], k => ([], k)
  | c :: cs, k =>
      let r := renumber c k
      let rs := renumberRows cs r.2
      (r.1 :: rs.1, rs.2)

end

/-- Translation of `on_actionPaste_triggered` with the selection (the
target item) at `t`.  Gate: the action is enabled iff
`target.canPaste(clip)` holds and not (`clip.cutSource and clip ==
target`).  Cut case: `takeChild` detaches the source object, `setChild`
appends it to the target, `resetForeground` repaints it, `removeRow`
drops the vacated row and the clip reference is nulled.  Copy case: a
clone (fresh objects) is appended; clip reference and marker stay. -/
def pasteOp (st : DocSt) (t : List Nat) : DocSt :=
  match st.clip with
  | none => st
  | some cid =>
      match getN t st.roots with
      | none => st
      | some tgt =>
          match findById st.roots cid with
          | none => st
          | some spsrc =>
              let sp := spsrc.1
              let src := spsrc.2
              if canPaste tgt.variant src.variant && !(src.cutSource && cid == tgt.nid) then
                if src.cutSource then
                  { roots := removeAtPath sp
                      (modifyAtPath t st.roots
                        (fun n => n.withChildren (n.children ++ [setNormalFore src]))),
                    clip := none, nextId := st.nextId }
                else
                  let c := renumber (clone src) st.nextId
                  { roots := modifyAtPath t st.roots
                      (fun n => n.withChildren (n.children ++ [c.1])),
                    clip := st.clip, nextId := c.2 }
              else st

/-- C6 counterexample state: one ticker root holding one field. -/
def exDoc6 : DocSt :=
  { roots := [.mk 60 "ACME" false false .normal
      (.ticker ⟨1, "ACME", "", "", "", "", 0, ""⟩)
      [.mk 61 "bid" false false .normal (.field 1) []]],
    clip := none, nextId := 100 }

/-- Counterexample for C6: cut the field, then delete it — the clip
reference still holds the deleted item's identity instead of being cleared
document-wide as the claim states. -/
theorem delete_leaves_clip_dangling :
    (deleteOp (cutOp exDoc6 [0, 0]) [0, 0]).clip = some 61 := by
  rfl

/-- C6 (amended): `delete(node)` removes the node (and its subtree) from
its parent's child sequence — the node sat at row `j` and the parent's
rows around it close up — while the document's clip reference is left
untouched, whatever it held. -/
theorem delete_removes_node_keeps_clip (st : DocSt) (base : List Nat) (j : Nat)
    (n : Node) (hn : getN (base ++ [j]) st.roots = some n) :
    (deleteOp st (base ++ [j])).clip = st.clip ∧
    (base = [] → (deleteOp st (base ++ [j])).roots = st.roots.eraseIdx j) ∧
    (∀ par, base ≠ [] → getN base st.roots = some par →
      par.children[j]? = some n ∧
      getN base (deleteOp st (base ++ [j])).roots =
        some (par.withChildren (par.children.eraseIdx j))) := by
  refine ⟨?_, ?_, ?_⟩
  · rw [deleteOp, hn]
  · intro hb
    subst hb
    rw [deleteOp, hn]
    rfl
  · intro par hb hpar
    refine ⟨?_, ?_⟩
    · rw [getN_append_last base j st.roots par hpar] at hn
      exact hn
    · rw [deleteOp, hn]
      exact getN_removeAtPath_parent base j st.roots par hb hpar

/-- Witness for C6's amended statement: deleting the field of `exDoc6`
empties the ticker's child row list and keeps the (null) clip. -/
theorem delete_removes_node_keeps_clip_witness :
    (deleteOp exDoc6 ([0] ++ [0])).clip = exDoc6.clip ∧
    getN [0] (deleteOp exDoc6 ([0] ++ [0])).roots =
      some (.mk 60 "ACME" false false .normal
        (.ticker ⟨1, "ACME", "", "", "", "", 0, ""⟩) []) := by
  have h := delete_removes_node_keeps_clip exDoc6 [0] 0
    (.mk 61 "bid" false false .normal (.field 1) []) (by rfl)
  refine ⟨h.1, ?_⟩
  have h2 := (h.2.2 (.mk 60 "ACME" false false .normal
    (.ticker ⟨1, "ACME", "", "", "", "", 0, ""⟩)
    [.mk 61 "bid" false false .normal (.field 1) []]) (by simp) (by rfl)).2
  simpa using h2

/-! ### Facts feeding the cut/paste analysis -/

theorem setCutNode_nid (n : Node) : (setCutNode n).nid = n.nid := by cases n; rfl

theorem setCutNode_children (n : Node) : (setCutNode n).children = n.children := by
  cases n; rfl

theorem setCutNode_variant (n : Node) : (setCutNode n).variant = n.variant := by
  cases n; rfl

theorem setCutNode_cutSource (n : Node) : (setCutNode n).cutSource = true := by
  cases n; rfl

theorem setNormalFore_setCutNode (n : Node) :
    setNormalFore (setCutNode n) =
      .mk n.nid n.text true false .normal n.payload n.children := by
  cases n; rfl

theorem nidsOf_modIdx (ns : List Node) (j : Nat) (h : Node → Node)
    (hn : ∀ x, (h x).nid = x.nid)
    (hc : ∀ x, nidsOf (h x).children = nidsOf x.children) :
    nidsOf (modIdx ns j h) = nidsOf ns := by
  induction ns generalizing j with
  | nil => rfl
  | cons c cs ih =>
      cases j with
      | zero => rw [modIdx, nidsOf_cons, nidsOf_cons, hn, hc]
      | succ j2 => rw [modIdx, nidsOf_cons, nidsOf_cons, ih j2]

theorem nidsOf_modifyAtPath (p : List Nat) :
    ∀ (ns : List Node) (g : Node → Node),
      (∀ x, (g x).nid = x.nid) → (∀ x, nidsOf (g x).children = nidsOf x.children) →
      nidsOf (modifyAtPath p ns g) = nidsOf ns := by
  induction p with
  | nil => intro ns g _ _; rfl
  | cons j rest ih =>
      intro ns g hn hc
      cases rest with
      | nil =>
          rw [modifyAtPath_single]
          exact nidsOf_modIdx ns j g hn hc
      | cons r rest2 =>
          rw [modifyAtPath_cons]
          refine nidsOf_modIdx ns j _ (fun x => by simp) (fun x => ?_)
          rw [Node.children_withChildren]
          exact ih x.children g hn hc

theorem not_prefix_concat (p t : List Nat) (L : Nat)
    (hpt : ¬ List.IsPrefix p t) (htp : ¬ List.IsPrefix t p) :
    ¬ List.IsPrefix p (t ++ [L]) := by
  intro hc
  by_cases hlen : p.length ≤ t.length
  · exact hpt (List.prefix_of_prefix_length_le hc ⟨[L], rfl⟩ hlen)
  · have hple := hc.length_le
    simp only [List.length_append, List.length_cons, List.length_nil] at hple
    have hp : p = t ++ [L] := hc.eq_of_length (by simp; omega)
    exact htp (hp ▸ ⟨[L], rfl⟩)

theorem not_concat_pref (p t : List Nat) (L : Nat) (htp : ¬ List.IsPrefix t p) :
    ¬ List.IsPrefix (t ++ [L]) p := by
  intro hc
  exact htp (List.IsPrefix.trans ⟨[L], rfl⟩ hc)

theorem map_nid_eraseIdx (l : List Node) (j : Nat) :
    (l.eraseIdx j).map Node.nid = (l.map Node.nid).eraseIdx j := by
  induction l generalizing j with
  | nil => simp
  | cons c cs ih =>
      cases j with
      | zero => simp
      | succ j2 => simp [ih j2]

theorem children_nids_nodup_of_mem :
    ∀ (k : Nat) (ns : List Node), sizeL ns ≤ k → (nidsOf ns).Nodup →
      ∀ par ∈ allNodesRows ns, (nidsOf par.children).Nodup := by
  intro k
  induction k with
  | zero =>
      intro ns hs _ par hpar
      cases ns with
      | nil => simp at hpar
      | cons c cs =>
          exfalso
          rw [sizeL_cons] at hs
          have := sizeN_pos c
          omega
  | succ k ih =>
      intro ns hs hnd par hpar
      cases ns with
      | nil => simp at hpar
      | cons c cs =>
          rw [sizeL_cons] at hs
          rw [nidsOf_cons] at hnd
          have hndgs : (nidsOf c.children).Nodup :=
            ((List.nodup_cons.mp hnd).2).of_append_left
          have hndcs : (nidsOf cs).Nodup :=
            ((List.nodup_cons.mp hnd).2).of_append_right
          rw [allNodesRows_cons] at hpar
          rcases List.mem_cons.mp hpar with rfl | hpar2
          · exact hndgs
          · rcases List.mem_append.mp hpar2 with hgs | hcs
            · obtain ⟨i, t, cu, co, f, p, gs⟩ := c
              rw [sizeN_eq] at hs
              exact ih gs (by omega) (by simpa using hndgs) par hgs
            · refine ih cs ?_ hndcs par hcs
              have := sizeN_pos c
              omega

theorem self_sublist_allNodesRows (ns : List Node) :
    ns.Sublist (allNodesRows ns) := by
  induction ns with
  | nil => simp
  | cons c cs ih =>
      rw [allNodesRows_cons]
      exact List.Sublist.cons₂ c (ih.trans (List.sublist_append_right _ _))

theorem children_map_nid_nodup (ns : List Node) (hnd : (nidsOf ns).Nodup)
    (par : Node) (hpar : par ∈ allNodesRows ns) :
    (par.children.map Node.nid).Nodup := by
  have h1 : (nidsOf par.children).Nodup :=
    children_nids_nodup_of_mem (sizeL ns) ns (Nat.le_refl _) hnd par hpar
  have h2 : (par.children.map Node.nid).Sublist (nidsOf par.children) :=
    (self_sublist_allNodesRows par.children).map Node.nid
  exact List.Nodup.sublist h2 h1

theorem not_mem_eraseIdx_of_nodup (l : List Nat) (j a : Nat)
    (hnd : l.Nodup) (hj : l[j]? = some a) : a ∉ l.eraseIdx j := by
  intro hmem
  rw [List.mem_eraseIdx_iff_getElem?] at hmem
  obtain ⟨i, hne, hi⟩ := hmem
  have hlen : i < l.length := by
    by_contra hc
    rw [List.getElem?_eq_none (by omega)] at hi
    cases hi
  exact hne (List.getElem?_inj hlen hnd (by rw [hi, hj]))

/-! ### Clip marker discipline (C5)

The cut/copy handlers reset only the *foreground* of the previously
referenced clip item (`self.clipItem.resetForeground()`); the
`cutSource`/`copySource` booleans set by an earlier `setCut`/`setCopy`
are never cleared.  Consequently several items can simultaneously carry a
set boolean, refuting the claim; what does hold is that at most one item
carries a painted (non-normal) foreground, namely the item the clip
reference designates. -/

/-- Single-item form of `resetForeRows`: repaint the item if its identity
is the referenced one, recurse into its rows. -/
def resetNode (cid : Nat) : Node → Node
  | .mk i t cu co f p gs =>
      .mk i t cu co (if i == cid then .normal else f) p (resetForeRows cid gs)

theorem resetForeRows_eq_map (cid : Nat) (l : List Node) :
    resetForeRows cid l = l.map (resetNode cid) := by
  induction l with
  | nil => simp [resetForeRows]
  | cons c cs ih =>
      obtain ⟨i, t, cu, co, f, p, gs⟩ := c
      simp [resetForeRows, ih, resetNode]

theorem resetForeRows_cons (cid : Nat) (i : Nat) (t : String) (cu co : Bool)
    (f : Fore) (p : Payload) (gs cs : List Node) :
    resetForeRows cid (.mk i t cu co f p gs :: cs) =
      .mk i t cu co (if i == cid then .normal else f) p (resetForeRows cid gs)
        :: resetForeRows cid cs := by
  simp [resetForeRows]

theorem resetNode_nid (cid : Nat) (n : Node) : (resetNode cid n).nid = n.nid := by
  obtain ⟨i, t, cu, co, f, p, gs⟩ := n
  simp [resetNode]

/-- Fetching at a path commutes with `resetForeRows`: the repaint rewrites
every node in place and moves nothing. -/
theorem getN_resetForeRows (cid : Nat) (q : List Nat) :
    ∀ ns : List Node,
      getN q (resetForeRows cid ns) = (getN q ns).map (resetNode cid) := by
  induction q with
  | nil => intro ns; simp
  | cons j rest ih =>
      intro ns
      rw [resetForeRows_eq_map cid ns]
      cases hj : ns[j]? with
      | none =>
          have hm : (ns.map (resetNode cid))[j]? = none := by
            rw [List.getElem?_map, hj]; rfl
          cases rest with
          | nil => rw [getN_single, getN_single, hj, hm]; rfl
          | cons r rest2 =>
              rw [getN_cons_none j r rest2 _ hm, getN_cons_none j r rest2 ns hj]
              rfl
      | some n =>
          have hm : (ns.map (resetNode cid))[j]? = some (resetNode cid n) := by
            rw [List.getElem?_map, hj]; rfl
          cases rest with
          | nil => rw [getN_single, getN_single, hj, hm]; rfl
          | cons r rest2 =>
              rw [getN_cons_some j r rest2 _ _ hm, getN_cons_some j r rest2 ns n hj]
              have hch : (resetNode cid n).children = resetForeRows cid n.children := by
                obtain ⟨i, t, cu, co, f, p, gs⟩ := n
                simp [resetNode]
              rw [hch]
              exact ih n.children

/-- Identity/foreground pairs of a forest in pre-order: the data the clip
marker discipline constrains. -/
def pairsOf (ns : List Node) : List (Nat × Fore) :=
  (allNodesRows ns).map (fun m => (m.nid, m.fore))

theorem pairsOf_cons (c : Node) (cs : List Node) :
    pairsOf (c :: cs) = (c.nid, c.fore) :: (pairsOf c.children ++ pairsOf cs) := by
  rw [pairsOf, allNodesRows_cons, List.map_cons, List.map_append]
  rfl

theorem nidsOf_eq_pairs_fst (ns : List Node) :
    nidsOf ns = (pairsOf ns).map Prod.fst := by
  rw [pairsOf, List.map_map]
  rfl

theorem mem_pairsOf (ns : List Node) (x : Node) (hx : x ∈ allNodesRows ns) :
    (x.nid, x.fore) ∈ pairsOf ns :=
  List.mem_map.mpr ⟨x, hx, rfl⟩

theorem pairsOf_mem_inv (ns : List Node) (pr : Nat × Fore) (h : pr ∈ pairsOf ns) :
    ∃ w ∈ allNodesRows ns, (w.nid, w.fore) = pr := by
  obtain ⟨w, hw, he⟩ := List.mem_map.mp h
  exact ⟨w, hw, he⟩

theorem pairsOf_children_subset (ns : List Node) (y : Node) (hy : y ∈ ns)
    (pr : Nat × Fore) (h : pr ∈ pairsOf y.children) : pr ∈ pairsOf ns := by
  obtain ⟨w, hw, he⟩ := List.mem_map.mp h
  exact List.mem_map.mpr ⟨w, allNodesRows_children_subset ns y hy w hw, he⟩

theorem pairsOf_resetForeRows_aux (cid : Nat) (k : Nat) :
    ∀ ns : List Node, sizeL ns ≤ k →
      pairsOf (resetForeRows cid ns) =
        (pairsOf ns).map (fun pr => (pr.1, if pr.1 == cid then Fore.normal else pr.2)) := by
  induction k with
  | zero =>
      intro ns hs
      cases ns with
      | nil => simp [resetForeRows, pairsOf]
      | cons c cs =>
          exfalso
          rw [sizeL_cons] at hs
          have := sizeN_pos c
          omega
  | succ k ih =>
      intro ns hs
      cases ns with
      | nil => simp [resetForeRows, pairsOf]
      | cons c cs =>
          obtain ⟨i, t, cu, co, f, p, gs⟩ := c
          rw [sizeL_cons, sizeN_eq] at hs
          rw [resetForeRows_cons, pairsOf_cons, pairsOf_cons]
          simp only [Node.nid_mk, Node.fore_mk, Node.children_mk, List.map_cons,
            List.map_append]
          rw [ih gs (by omega), ih cs (by omega)]

theorem pairsOf_resetForeRows (cid : Nat) (ns : List Node) :
    pairsOf (resetForeRows cid ns) =
      (pairsOf ns).map (fun pr => (pr.1, if pr.1 == cid then Fore.normal else pr.2)) :=
  pairsOf_resetForeRows_aux cid (sizeL ns) ns (Nat.le_refl _)

theorem nidsOf_resetForeRows (cid : Nat) (ns : List Node) :
    nidsOf (resetForeRows cid ns) = nidsOf ns := by
  rw [nidsOf_eq_pairs_fst, nidsOf_eq_pairs_fst, pairsOf_resetForeRows, List.map_map]
  rfl

/-- Membership in the flattening after a one-row modification: an element
is an untouched old node, the modified node itself, or sits below the
modified node. -/
theorem mem_modIdx_cases (ns : List Node) (j : Nat) (h : Node → Node) (x : Node)
    (hx : x ∈ allNodesRows (modIdx ns j h)) :
    x ∈ allNodesRows ns ∨
      ∃ y, ns[j]? = some y ∧ (x = h y ∨ x ∈ allNodesRows (h y).children) := by
  induction ns generalizing j with
  | nil =>
      rw [show modIdx [] j h = [] from rfl] at hx
      simp at hx
  | cons c cs ih =>
      cases j with
      | zero =>
          rw [show modIdx (c :: cs) 0 h = h c :: cs from rfl, allNodesRows_cons] at hx
          rcases List.mem_cons.mp hx with rfl | hx2
          · exact Or.inr ⟨c, by simp, Or.inl rfl⟩
          · rcases List.mem_append.mp hx2 with hxc | hxs
            · exact Or.inr ⟨c, by simp, Or.inr hxc⟩
            · refine Or.inl ?_
              rw [allNodesRows_cons]
              exact List.mem_cons_of_mem _ (List.mem_append.mpr (Or.inr hxs))
      | succ j2 =>
          rw [show modIdx (c :: cs) (j2 + 1) h = c :: modIdx cs j2 h from rfl,
            allNodesRows_cons] at hx
          rcases List.mem_cons.mp hx with rfl | hx2
          · refine Or.inl ?_
            rw [allNodesRows_cons]
            exact List.mem_cons_self _ _
          · rcases List.mem_append.mp hx2 with hxc | hxs
            · refine Or.inl ?_
              rw [allNodesRows_cons]
              exact List.mem_cons_of_mem _ (List.mem_append.mpr (Or.inl hxc))
            · rcases ih j2 hxs with hin | ⟨y, hy, hcase⟩
              · refine Or.inl ?_
                rw [allNodesRows_cons]
                exact List.mem_cons_of_mem _ (List.mem_append.mpr (Or.inr hin))
              · refine Or.inr ⟨y, ?_, hcase⟩
                rw [List.getElem?_cons_succ]
                exact hy

/-- Membership in the flattening after a path modification, at the level of
identity/foreground pairs: an element either shows a pair already present,
is the image of the node at the path, or is one of the `extra` nodes the
modification may introduce below it. -/
theorem mem_modifyAtPath_pairs (p : List Nat) :
    ∀ (ns : List Node) (g : Node → Node) (extra : List Node),
      (∀ y z, z ∈ allNodesRows (g y).children →
        z ∈ allNodesRows y.children ∨ z ∈ extra) →
      ∀ x ∈ allNodesRows (modifyAtPath p ns g),
        (x.nid, x.fore) ∈ pairsOf ns ∨
          (∃ y, getN p ns = some y ∧ x = g y) ∨ x ∈ extra := by
  induction p with
  | nil =>
      intro ns g extra _ x hx
      exact Or.inl (mem_pairsOf ns x hx)
  | cons j rest ih =>
      intro ns g extra hsplit x hx
      cases rest with
      | nil =>
          rw [modifyAtPath_single] at hx
          rcases mem_modIdx_cases ns j g x hx with hin | ⟨y, hy, hcase⟩
          · exact Or.inl (mem_pairsOf ns x hin)
          · rcases hcase with hxe | hxch
            · exact Or.inr (Or.inl ⟨y, by rw [getN_single]; exact hy, hxe⟩)
            · rcases hsplit y x hxch with hyc | hex
              · exact Or.inl (pairsOf_children_subset ns y (List.getElem?_mem hy) _
                  (mem_pairsOf y.children x hyc))
              · exact Or.inr (Or.inr hex)
      | cons r rest2 =>
          rw [modifyAtPath_cons] at hx
          rcases mem_modIdx_cases ns j _ x hx with hin | ⟨y, hy, hcase⟩
          · exact Or.inl (mem_pairsOf ns x hin)
          · have hymem : y ∈ ns := List.getElem?_mem hy
            rcases hcase with hxe | hxch
            · refine Or.inl ?_
              have hx2 : (x.nid, x.fore) = (y.nid, y.fore) := by
                rw [hxe]
                obtain ⟨i2, t2, cu2, co2, f2, pp2, gs2⟩ := y
                rfl
              rw [hx2]
              exact mem_pairsOf ns y (mem_allNodesRows_of_mem ns y hymem)
            · simp only [Node.children_withChildren] at hxch
              rcases ih y.children g extra hsplit x hxch with hpr | hmid | hex
              · exact Or.inl (pairsOf_children_subset ns y hymem _ hpr)
              · obtain ⟨y2, hy2, hxg⟩ := hmid
                refine Or.inr (Or.inl ⟨y2, ?_, hxg⟩)
                rw [getN_cons_some j r rest2 ns y hy]
                exact hy2
              · exact Or.inr (Or.inr hex)

theorem pairsOf_eraseIdx_sublist (ns : List Node) (j : Nat) :
    (pairsOf (ns.eraseIdx j)).Sublist (pairsOf ns) := by
  induction ns generalizing j with
  | nil => simp [pairsOf]
  | cons c cs ih =>
      cases j with
      | zero =>
          rw [show (c :: cs).eraseIdx 0 = cs from rfl, pairsOf_cons]
          exact List.Sublist.cons _ (List.sublist_append_right _ _)
      | succ j2 =>
          rw [show (c :: cs).eraseIdx (j2 + 1) = c :: cs.eraseIdx j2 from rfl,
            pairsOf_cons, pairsOf_cons]
          exact List.Sublist.cons₂ _ (List.Sublist.append (List.Sublist.refl _) (ih j2))

theorem pairsOf_modIdx_sublist (ns : List Node) (j : Nat) (h : Node → Node)
    (hpair : ∀ y, ((h y).nid, (h y).fore) = (y.nid, y.fore))
    (hch : ∀ y, (pairsOf (h y).children).Sublist (pairsOf y.children)) :
    (pairsOf (modIdx ns j h)).Sublist (pairsOf ns) := by
  induction ns generalizing j with
  | nil => rw [show modIdx [] j h = [] from rfl]
  | cons c cs ih =>
      cases j with
      | zero =>
          rw [show modIdx (c :: cs) 0 h = h c :: cs from rfl, pairsOf_cons,
            pairsOf_cons, hpair c]
          exact List.Sublist.cons₂ _ (List.Sublist.append (hch c) (List.Sublist.refl _))
      | succ j2 =>
          rw [show modIdx (c :: cs) (j2 + 1) h = c :: modIdx cs j2 h from rfl,
            pairsOf_cons, pairsOf_cons]
          exact List.Sublist.cons₂ _ (List.Sublist.append (List.Sublist.refl _) (ih j2))

/-- Removal at a path only deletes identity/foreground pairs: the ancestors
on the spine keep their identity and foreground. -/
theorem pairsOf_removeAtPath_sublist (p : List Nat) :
    ∀ ns : List Node, (pairsOf (removeAtPath p ns)).Sublist (pairsOf ns) := by
  induction p with
  | nil => intro ns; exact List.Sublist.refl _
  | cons j rest ih =>
      intro ns
      cases rest with
      | nil =>
          rw [removeAtPath_single]
          exact pairsOf_eraseIdx_sublist ns j
      | cons r rest2 =>
          rw [removeAtPath_cons]
          refine pairsOf_modIdx_sublist ns j _ (fun y => ?_) (fun y => ?_)
          · obtain ⟨i2, t2, cu2, co2, f2, pp2, gs2⟩ := y
            rfl
          · simp only [Node.children_withChildren]
            exact ih y.children

theorem nidsOf_removeAtPath_sublist (p : List Nat) (ns : List Node) :
    (nidsOf (removeAtPath p ns)).Sublist (nidsOf ns) := by
  rw [nidsOf_eq_pairs_fst, nidsOf_eq_pairs_fst]
  exact (pairsOf_removeAtPath_sublist p ns).map Prod.fst

/-- Document invariant behind the clip discipline: object identities are
globally distinct, and any item whose foreground is painted (red or blue)
is exactly the item the clip reference designates. -/
def Inv (st : DocSt) : Prop :=
  (nidsOf st.roots).Nodup ∧
    ∀ m ∈ allNodesRows st.roots, m.fore ≠ Fore.normal → st.clip = some m.nid

/-- Common step of `cutOp`/`copyOp`: resetting the previous clip item's
foreground and then marking the selected node (any marker keeping identity
and children) yields a state that again satisfies the invariant, with the
freshly marked node as the unique painted one. -/
theorem inv_mark_step (st : DocSt) (p : List Nat) (n : Node) (mark : Node → Node)
    (r1 : List Node)
    (hr1 : (st.clip = none ∧ r1 = st.roots) ∨
      (∃ cid, st.clip = some cid ∧ r1 = resetForeRows cid st.roots))
    (hmknid : ∀ y, (mark y).nid = y.nid)
    (hmkch : ∀ y, (mark y).children = y.children)
    (hInv : Inv st) (hn : getN p st.roots = some n) :
    Inv { roots := modifyAtPath p r1 mark, clip := some n.nid, nextId := st.nextId } := by
  obtain ⟨hnd, hcol⟩ := hInv
  have hr1nids : nidsOf r1 = nidsOf st.roots := by
    rcases hr1 with ⟨_, hre⟩ | ⟨cid, _, hre⟩
    · rw [hre]
    · rw [hre]
      exact nidsOf_resetForeRows cid st.roots
  have hpairs : ∀ a f, (a, f) ∈ pairsOf r1 → f = Fore.normal := by
    intro a f hpr
    by_cases hne : f = Fore.normal
    · exact hne
    · exfalso
      rcases hr1 with ⟨hcnone, hre⟩ | ⟨cid, hcsome, hre⟩
      · rw [hre] at hpr
        obtain ⟨w, hw, hwe⟩ := pairsOf_mem_inv _ _ hpr
        have hwf : w.fore = f := congrArg Prod.snd hwe
        have hclip := hcol w hw (by rw [hwf]; exact hne)
        rw [hcnone] at hclip
        cases hclip
      · rw [hre, pairsOf_resetForeRows] at hpr
        obtain ⟨pr0, hpr0, hpr0e⟩ := List.mem_map.mp hpr
        obtain ⟨a0, f0⟩ := pr0
        obtain ⟨w, hw, hwe⟩ := pairsOf_mem_inv _ _ hpr0
        have hwn : w.nid = a0 := congrArg Prod.fst hwe
        have hwf : w.fore = f0 := congrArg Prod.snd hwe
        have hfa : (if (a0 == cid) = true then Fore.normal else f0) = f :=
          congrArg Prod.snd hpr0e
        by_cases hcid : (a0 == cid) = true
        · rw [if_pos hcid] at hfa
          exact hne hfa.symm
        · rw [if_neg hcid] at hfa
          have hclip := hcol w hw (by rw [hwf, hfa]; exact hne)
          rw [hcsome] at hclip
          have hca : cid = w.nid := Option.some.inj hclip
          rw [hwn] at hca
          exact hcid (beq_iff_eq.mpr hca.symm)
  refine ⟨?_, ?_⟩
  · show (nidsOf (modifyAtPath p r1 mark)).Nodup
    rw [nidsOf_modifyAtPath p r1 mark hmknid (fun x => by rw [hmkch x]), hr1nids]
    exact hnd
  · intro m hm hmne
    show some n.nid = some m.nid
    have hm2 : m ∈ allNodesRows (modifyAtPath p r1 mark) := hm
    rcases mem_modifyAtPath_pairs p r1 mark []
        (fun y z hz => Or.inl (by rw [hmkch y] at hz; exact hz)) m hm2 with
      hpr | ⟨y, hy, hmy⟩ | hex
    · exact absurd (hpairs m.nid m.fore hpr) hmne
    · have hynid : y.nid = n.nid := by
        rcases hr1 with ⟨_, hre⟩ | ⟨cid, _, hre⟩
        · rw [hre, hn] at hy
          rw [Option.some.inj hy]
        · rw [hre, getN_resetForeRows, hn, Option.map_some'] at hy
          have hyv := Option.some.inj hy
          rw [← hyv, resetNode_nid]
      rw [hmy, hmknid y, hynid]
    · cases hex

theorem cutOp_preserves_inv (st : DocSt) (p : List Nat) (hInv : Inv st) :
    Inv (cutOp st p) := by
  cases hg : getN p st.roots with
  | none => simp only [cutOp, hg]; exact hInv
  | some n =>
      simp only [cutOp, hg]
      by_cases hcut : canCut n.variant = true
      · rw [if_pos hcut]
        cases hc : st.clip with
        | none =>
            exact inv_mark_step st p n setCutNode st.roots (Or.inl ⟨hc, rfl⟩)
              (fun y => by cases y; rfl) (fun y => by cases y; rfl) hInv hg
        | some cid =>
            exact inv_mark_step st p n setCutNode (resetForeRows cid st.roots)
              (Or.inr ⟨cid, hc, rfl⟩)
              (fun y => by cases y; rfl) (fun y => by cases y; rfl) hInv hg
      · rw [if_neg hcut]; exact hInv

theorem copyOp_preserves_inv (st : DocSt) (p : List Nat) (hInv : Inv st) :
    Inv (copyOp st p) := by
  cases hg : getN p st.roots with
  | none => simp only [copyOp, hg]; exact hInv
  | some n =>
      simp only [copyOp, hg]
      by_cases hcopy : canCopy n.variant = true
      · rw [if_pos hcopy]
        cases hc : st.clip with
        | none =>
            exact inv_mark_step st p n setCopyNode st.roots (Or.inl ⟨hc, rfl⟩)
              (fun y => by cases y; rfl) (fun y => by cases y; rfl) hInv hg
        | some cid =>
            exact inv_mark_step st p n setCopyNode (resetForeRows cid st.roots)
              (Or.inr ⟨cid, hc, rfl⟩)
              (fun y => by cases y; rfl) (fun y => by cases y; rfl) hInv hg
      · rw [if_neg hcopy]; exact hInv

theorem deleteOp_preserves_inv (st : DocSt) (p : List Nat) (hInv : Inv st) :
    Inv (deleteOp st p) := by
  cases hg : getN p st.roots with
  | none => simp only [deleteOp, hg]; exact hInv
  | some n =>
      simp only [deleteOp, hg]
      obtain ⟨hnd, hcol⟩ := hInv
      refine ⟨?_, ?_⟩
      · show (nidsOf (removeAtPath p st.roots)).Nodup
        exact List.Nodup.sublist (nidsOf_removeAtPath_sublist p st.roots) hnd
      · intro m hm hmne
        show st.clip = some m.nid
        have hm2 : m ∈ allNodesRows (removeAtPath p st.roots) := hm
        have hpr : (m.nid, m.fore) ∈ pairsOf (removeAtPath p st.roots) :=
          mem_pairsOf _ m hm2
        have hpr2 : (m.nid, m.fore) ∈ pairsOf st.roots :=
          (pairsOf_removeAtPath_sublist p st.roots).subset hpr
        obtain ⟨w, hw, hwe⟩ := pairsOf_mem_inv _ _ hpr2
        have hwn : w.nid = m.nid := congrArg Prod.fst hwe
        have hwf : w.fore = m.fore := congrArg Prod.snd hwe
        have hclip := hcol w hw (by rw [hwf]; exact hmne)
        rw [hclip, hwn]

theorem colored_unique (st : DocSt) (hInv : Inv st) (m1 : Node)
    (h1 : m1 ∈ allNodesRows st.roots) (m2 : Node) (h2 : m2 ∈ allNodesRows st.roots)
    (hc1 : m1.fore ≠ Fore.normal) (hc2 : m2.fore ≠ Fore.normal) : m1 = m2 := by
  obtain ⟨hnd, hcol⟩ := hInv
  have e1 := hcol m1 h1 hc1
  have e2 := hcol m2 h2 hc2
  have hnid : m1.nid = m2.nid := Option.some.inj (e1.symm.trans e2)
  have hnd2 : ((allNodesRows st.roots).map Node.nid).Nodup := hnd
  exact List.inj_on_of_nodup_map hnd2 h1 h2 hnid

/-- Document used for the C5 counterexample and witness: one ticker root
holding two fields. -/
def exDoc5 : DocSt :=
  { roots := [.mk 50 "ACME" false false .normal
      (.ticker ⟨1, "ACME", "", "", "", "", 0, ""⟩)
      [.mk 51 "bid" false false .normal (.field 1) [],
       .mk 52 "ask" false false .normal (.field 2) []]],
    clip := none, nextId := 100 }

/-- Counterexample for C5: copying the first field and then the second
leaves BOTH fields with `copySource = true` — `on_actionCopy_triggered`
only calls `resetForeground()` on the previous clip item and never clears
its boolean — so two nodes carry an active clipState marker at once; only
the foreground is exclusive (the first field is repainted normal). -/
theorem copy_copy_two_markers :
    ((allNodesRows (copyOp (copyOp exDoc5 [0, 0]) [0, 1]).roots).filter
        (fun m => m.copySource)).map Node.nid = [51, 52] ∧
    (getN [0, 0] (copyOp (copyOp exDoc5 [0, 0]) [0, 1]).roots).map Node.fore =
      some Fore.normal := by
  have h1 : copyOp exDoc5 [0, 0] =
      { roots := [.mk 50 "ACME" false false .normal
          (.ticker ⟨1, "ACME", "", "", "", "", 0, ""⟩)
          [.mk 51 "bid" false true .blue (.field 1) [],
           .mk 52 "ask" false false .normal (.field 2) []]],
        clip := some 51, nextId := 100 } := by rfl
  have hr : resetForeRows 51
      [Node.mk 50 "ACME" false false .normal
        (.ticker ⟨1, "ACME", "", "", "", "", 0, ""⟩)
        [.mk 51 "bid" false true .blue (.field 1) [],
         .mk 52 "ask" false false .normal (.field 2) []]] =
      [Node.mk 50 "ACME" false false .normal
        (.ticker ⟨1, "ACME", "", "", "", "", 0, ""⟩)
        [.mk 51 "bid" false true .normal (.field 1) [],
         .mk 52 "ask" false false .normal (.field 2) []]] := by
    simp [resetForeRows]
  have h2a : copyOp (copyOp exDoc5 [0, 0]) [0, 1] =
      { roots := modifyAtPath [0, 1]
          (resetForeRows 51
            [Node.mk 50 "ACME" false false .normal
              (.ticker ⟨1, "ACME", "", "", "", "", 0, ""⟩)
              [.mk 51 "bid" false true .blue (.field 1) [],
               .mk 52 "ask" false false .normal (.field 2) []]]) setCopyNode,
        clip := some 52, nextId := 100 } := by
    rw [h1]
    rfl
  have h2 : copyOp (copyOp exDoc5 [0, 0]) [0, 1] =
      { roots := [.mk 50 "ACME" false false .normal
          (.ticker ⟨1, "ACME", "", "", "", "", 0, ""⟩)
          [.mk 51 "bid" false true .normal (.field 1) [],
           .mk 52 "ask" false true .blue (.field 2) []]],
        clip := some 52, nextId := 100 } := by
    rw [h2a, hr]
    rfl
  have hall2 : allNodesRows (copyOp (copyOp exDoc5 [0, 0]) [0, 1]).roots =
      [Node.mk 50 "ACME" false false .normal
        (.ticker ⟨1, "ACME", "", "", "", "", 0, ""⟩)
        [.mk 51 "bid" false true .normal (.field 1) [],
         .mk 52 "ask" false true .blue (.field 2) []],
       Node.mk 51 "bid" false true .normal (.field 1) [],
       Node.mk 52 "ask" false true .blue (.field 2) []] := by
    rw [h2]
    simp [allNodesRows]
  refine ⟨?_, ?_⟩
  · rw [hall2]
    rfl
  · rw [h2]
    rfl

/-- C5 (amended): the cut/copy handlers reset only the foreground of the
previously referenced clip item; the cutSource/copySource booleans are
never cleared, so several items may simultaneously carry a set boolean —
but at most one item document-wide carries a painted (non-normal)
foreground, namely the item the clip reference designates: under the
invariant `Inv` (distinct identities; painted implies referenced) any two
painted items coincide, and `Inv` is preserved by the cut, copy and
delete operations. -/
theorem clip_marker_discipline (st : DocSt) (hInv : Inv st) :
    (∀ m1 ∈ allNodesRows st.roots, ∀ m2 ∈ allNodesRows st.roots,
        m1.fore ≠ Fore.normal → m2.fore ≠ Fore.normal → m1 = m2) ∧
    (∀ p, Inv (cutOp st p)) ∧
    (∀ p, Inv (copyOp st p)) ∧
    (∀ p, Inv (deleteOp st p)) :=
  ⟨fun m1 h1 m2 h2 hc1 hc2 => colored_unique st hInv m1 h1 m2 h2 hc1 hc2,
   fun p => cutOp_preserves_inv st p hInv,
   fun p => copyOp_preserves_inv st p hInv,
   fun p => deleteOp_preserves_inv st p hInv⟩

/-- Witness for C5's amended statement: the two-field document satisfies
the invariant, hence (among the other clauses) every copy operation on it
preserves the invariant. -/
theorem clip_marker_discipline_witness :
    Inv exDoc5 ∧ ∀ p, Inv (copyOp exDoc5 p) := by
  have hall : allNodesRows exDoc5.roots =
      [Node.mk 50 "ACME" false false .normal
        (.ticker ⟨1, "ACME", "", "", "", "", 0, ""⟩)
        [.mk 51 "bid" false false .normal (.field 1) [],
         .mk 52 "ask" false false .normal (.field 2) []],
       Node.mk 51 "bid" false false .normal (.field 1) [],
       Node.mk 52 "ask" false false .normal (.field 2) []] := by
    simp [exDoc5, allNodesRows]
  have hInv : Inv exDoc5 := by
    refine ⟨?_, ?_⟩
    · have hn : nidsOf exDoc5.roots = [50, 51, 52] := by rw [nidsOf, hall]; rfl
      rw [hn]
      decide
    · intro m hm hmne
      rw [hall] at hm
      rcases List.mem_cons.mp hm with rfl | hm2
      · exact absurd rfl hmne
      rcases List.mem_cons.mp hm2 with rfl | hm3
      · exact absurd rfl hmne
      rcases List.mem_cons.mp hm3 with rfl | hm4
      · exact absurd rfl hmne
      exact absurd hm4 (List.not_mem_nil m)
  exact ⟨hInv, (clip_marker_discipline exDoc5 hInv).2.2.1⟩

/-! ### Cut/paste move semantics (C4)

On paste after a cut, `on_actionPaste_triggered` detaches the source
object with `takeChild`, appends it to the target with `setChild`, calls
only `resetForeground()` on it (the `cutSource` boolean stays set), drops
the vacated row and nulls the clip reference.  The cut itself first
repaints the previously referenced clip item, so the moved subtree is
intact up to that one repaint. -/

/-- Concatenating onto a resolved path descends into that node's rows. -/
theorem getN_append (q : List Nat) :
    ∀ (k : Nat) (rest : List Nat) (ns : List Node) (m : Node), getN q ns = some m →
      getN (q ++ (k :: rest)) ns = getN (k :: rest) m.children := by
  induction q with
  | nil => intro k rest ns m hm; simp at hm
  | cons x qrest ih =>
      intro k rest ns m hm
      cases qrest with
      | nil =>
          rw [getN_single] at hm
          rw [show (([x] ++ (k :: rest)) : List Nat) = x :: k :: rest from rfl,
            getN_cons_some x k rest ns m hm]
      | cons x2 qrest2 =>
          cases hx : ns[x]? with
          | none => rw [getN_cons_none _ _ _ _ hx] at hm; cases hm
          | some c =>
              rw [getN_cons_some _ _ _ _ _ hx] at hm
              rw [show ((x :: x2 :: qrest2) ++ (k :: rest) : List Nat) =
                x :: ((x2 :: qrest2) ++ (k :: rest)) from rfl]
              rw [show ((x2 :: qrest2) ++ (k :: rest) : List Nat) =
                x2 :: (qrest2 ++ (k :: rest)) from rfl]
              rw [getN_cons_some _ _ _ _ _ hx]
              have hih := ih k rest c.children m hm
              rw [show ((x2 :: qrest2) ++ (k :: rest) : List Nat) =
                x2 :: (qrest2 ++ (k :: rest)) from rfl] at hih
              exact hih

theorem getN_cons_lt (k : Nat) (rest : List Nat) (ns : List Node) (x : Node)
    (h : getN (k :: rest) ns = some x) : k < ns.length := by
  by_contra hcon
  have hnone : ns[k]? = none := List.getElem?_eq_none (by omega)
  cases rest with
  | nil => rw [getN_single, hnone] at h; cases h
  | cons r rest2 => rw [getN_cons_none _ _ _ _ hnone] at h; cases h

theorem getN_cons_append_left (k : Nat) (rest : List Nat) (l1 l2 : List Node)
    (h : k < l1.length) : getN (k :: rest) (l1 ++ l2) = getN (k :: rest) l1 := by
  cases hk : l1[k]? with
  | none =>
      exfalso
      rw [List.getElem?_eq_none_iff] at hk
      omega
  | some c =>
      have hak : (l1 ++ l2)[k]? = some c := by
        rw [List.getElem?_append_left h, hk]
      cases rest with
      | nil => rw [getN_single, getN_single, hak, hk]
      | cons r rest2 =>
          rw [getN_cons_some _ _ _ _ _ hak, getN_cons_some _ _ _ _ _ hk]

theorem map_nid_resetForeRows (cid : Nat) (l : List Node) :
    (resetForeRows cid l).map Node.nid = l.map Node.nid := by
  induction l with
  | nil => simp [resetForeRows]
  | cons c cs ih =>
      obtain ⟨i, t, cu, co, f, p, gs⟩ := c
      rw [resetForeRows_cons]
      simp [ih]

theorem resetNode_text (cid : Nat) (n : Node) : (resetNode cid n).text = n.text := by
  obtain ⟨i, t, cu, co, f, p, gs⟩ := n
  simp [resetNode]

theorem resetNode_payload (cid : Nat) (n : Node) :
    (resetNode cid n).payload = n.payload := by
  obtain ⟨i, t, cu, co, f, p, gs⟩ := n
  simp [resetNode]

theorem resetNode_children (cid : Nat) (n : Node) :
    (resetNode cid n).children = resetForeRows cid n.children := by
  obtain ⟨i, t, cu, co, f, p, gs⟩ := n
  simp [resetNode]

/-- Rows of a subtree as they stand after the cut handler's first step:
the previously referenced clip item, if any, is repainted
(`resetForeground`), and nothing else changes. -/
def clipReset (st : DocSt) (ns : List Node) : List Node :=
  match st.clip with
  | none => ns
  | some cid => resetForeRows cid ns

/-- Core of the cut/paste analysis, abstracted over the repaint `rho` that
the cut applied to the whole forest (the identity when no clip was
pending, the repaint of the previous clip item otherwise): pasting the cut
node onto a target that is not the node itself and does not lie inside its
subtree detaches the node and appends it — repainted to normal but with
`cutSource` still set — as the target's last child, nulling the clip. -/
theorem paste_cut_core (stR : List Node) (nid2 : Nat) (base t : List Nat) (j : Nat)
    (n tgt : Node) (r1 : List Node) (rho : Node → Node)
    (Hget : ∀ q, getN q r1 = (getN q stR).map rho)
    (Hnid : ∀ x, (rho x).nid = x.nid)
    (Hpay : ∀ x, (rho x).payload = x.payload)
    (Htext : ∀ x, (rho x).text = x.text)
    (Hcmap : ∀ x, (rho x).children.map Node.nid = x.children.map Node.nid)
    (Hnids : nidsOf r1 = nidsOf stR)
    (hnd : (nidsOf stR).Nodup)
    (hn : getN (base ++ [j]) stR = some n) (ht : getN t stR = some tgt)
    (hpaste : canPaste tgt.variant n.variant = true) (hne : n.nid ≠ tgt.nid)
    (hpt : ¬ List.IsPrefix (base ++ [j]) t) :
    (pasteOp
      { roots := modifyAtPath (base ++ [j]) r1 setCutNode,
        clip := some n.nid, nextId := nid2 } t).clip = none ∧
    getN (shiftAfterRemove (base ++ [j]) (t ++ [tgt.children.length]))
        (pasteOp
          { roots := modifyAtPath (base ++ [j]) r1 setCutNode,
            clip := some n.nid, nextId := nid2 } t).roots =
      some (.mk n.nid n.text true false .normal n.payload (rho n).children) ∧
    (∀ par, base ≠ [] → getN base stR = some par →
      ∃ par2, getN base (pasteOp
          { roots := modifyAtPath (base ++ [j]) r1 setCutNode,
            clip := some n.nid, nextId := nid2 } t).roots = some par2 ∧
        par2.children.map Node.nid =
          ((par.children.map Node.nid).eraseIdx j) ++
            (if t = base then [n.nid] else []) ∧
        n.nid ∉ (par.children.map Node.nid).eraseIdx j) := by
  have hn1 : getN (base ++ [j]) r1 = some (rho n) := by
    rw [Hget, hn]
    rfl
  have hgt1 : getN t r1 = some (rho tgt) := by
    rw [Hget, ht]
    rfl
  have hg1 : getN (base ++ [j]) (modifyAtPath (base ++ [j]) r1 setCutNode) =
      some (setCutNode (rho n)) := by
    rw [getN_modifyAtPath_self, hn1]
    rfl
  have hnd1 : (nidsOf (modifyAtPath (base ++ [j]) r1 setCutNode)).Nodup := by
    rw [nidsOf_modifyAtPath _ _ _ setCutNode_nid
      (fun x => by rw [setCutNode_children]), Hnids]
    exact hnd
  have hfind : findById (modifyAtPath (base ++ [j]) r1 setCutNode) n.nid =
      some (base ++ [j], setCutNode (rho n)) := by
    have h := findById_of_getN _ _ _ hnd1 hg1
    rwa [setCutNode_nid, Hnid] at h
  have hrhovar : (rho n).variant = n.variant := by
    simp only [Node.variant, Hpay]
  obtain ⟨tgtX, hgtX, hXnid, hXpay, hXlen⟩ :
      ∃ tx, getN t (modifyAtPath (base ++ [j]) r1 setCutNode) = some tx ∧
        tx.nid = tgt.nid ∧ tx.payload = tgt.payload ∧
        tx.children.length = tgt.children.length := by
    have hlrho : (rho tgt).children.length = tgt.children.length := by
      have h3 := congrArg List.length (Hcmap tgt)
      rwa [List.length_map, List.length_map] at h3
    by_cases htp : List.IsPrefix t (base ++ [j])
    · have htne : t ≠ base ++ [j] := by
        intro hceq
        refine hpt ?_
        rw [hceq]
      obtain ⟨tx, hgtx, hnid2, _, _, _, _, hpay2, hcmap2⟩ :=
        getN_modifyAtPath_above t (base ++ [j]) r1 setCutNode setCutNode_nid
          htp htne (rho tgt) hgt1
      refine ⟨tx, hgtx, ?_, ?_, ?_⟩
      · rw [hnid2, Hnid]
      · rw [hpay2, Hpay]
      · have hl1 := congrArg List.length hcmap2
        rw [List.length_map, List.length_map] at hl1
        rw [hl1, hlrho]
    · refine ⟨rho tgt, ?_, Hnid tgt, Hpay tgt, hlrho⟩
      rw [getN_modifyAtPath_other _ t hpt htp]
      exact hgt1
  have hbeqf : (n.nid == tgtX.nid) = false := by
    rw [hXnid]
    simp [hne]
  have hXvar : tgtX.variant = tgt.variant := by
    simp only [Node.variant, hXpay]
  have hst2 : pasteOp
      { roots := modifyAtPath (base ++ [j]) r1 setCutNode,
        clip := some n.nid, nextId := nid2 } t =
      { roots := removeAtPath (base ++ [j])
          (modifyAtPath t (modifyAtPath (base ++ [j]) r1 setCutNode)
            (fun nn => nn.withChildren
              (nn.children ++ [setNormalFore (setCutNode (rho n))]))),
        clip := none, nextId := nid2 } := by
    simp only [pasteOp, hgtX, hfind, setCutNode_cutSource, Bool.true_and]
    rw [if_pos (show (canPaste tgtX.variant (setCutNode (rho n)).variant &&
      !(n.nid == tgtX.nid)) = true by
        rw [setCutNode_variant, hrhovar, hXvar, hpaste, hbeqf]
        rfl)]
    exact if_pos trivial
  refine ⟨by rw [hst2], ?_, ?_⟩
  · have hgtr3 : getN t (modifyAtPath t (modifyAtPath (base ++ [j]) r1 setCutNode)
        (fun nn => nn.withChildren
          (nn.children ++ [setNormalFore (setCutNode (rho n))]))) =
        some (tgtX.withChildren
          (tgtX.children ++ [setNormalFore (setCutNode (rho n))])) := by
      rw [getN_modifyAtPath_self, hgtX]
      rfl
    have hnopre : ¬ List.IsPrefix (base ++ [j]) (t ++ [tgt.children.length]) ∧
        ¬ List.IsPrefix (t ++ [tgt.children.length]) (base ++ [j]) := by
      by_cases htp : List.IsPrefix t (base ++ [j])
      · obtain ⟨s, hs⟩ := htp
        cases s with
        | nil =>
            exfalso
            rw [List.append_nil] at hs
            refine hpt ?_
            rw [hs]
        | cons k srest =>
            have hklt : k < tgt.children.length := by
              have hgab : getN (t ++ (k :: srest)) stR = some n := by
                rw [hs]
                exact hn
              rw [getN_append t k srest stR tgt ht] at hgab
              exact getN_cons_lt k srest tgt.children n hgab
            constructor
            · intro hc
              rw [← hs] at hc
              obtain ⟨rr, hrr⟩ := (List.prefix_append_right_inj t).mp hc
              have hk0 : k = tgt.children.length := by
                have h0 := congrArg (fun l => l[0]?) hrr
                simpa using h0
              omega
            · intro hc
              rw [← hs] at hc
              obtain ⟨rr, hrr⟩ := (List.prefix_append_right_inj t).mp hc
              have hk0 : tgt.children.length = k := by
                have h0 := congrArg (fun l => l[0]?) hrr
                simpa using h0
              omega
      · exact ⟨not_prefix_concat _ _ _ hpt htp, not_concat_pref _ _ _ htp⟩
    rw [hst2]
    rw [getN_removeAtPath_other (base ++ [j]) (t ++ [tgt.children.length])
      hnopre.1 hnopre.2]
    rw [getN_append_last t tgt.children.length _ _ hgtr3, Node.children_withChildren]
    rw [← hXlen, List.getElem?_concat_length, setNormalFore_setCutNode]
    rw [Hnid, Htext, Hpay]
  · intro par hb hpar
    have hpar1 : getN base r1 = some (rho par) := by
      rw [Hget, hpar]
      rfl
    have hbnep : base ≠ base ++ [j] := by
      intro hceq
      have hlen := congrArg List.length hceq
      simp at hlen
    obtain ⟨par1, hgpar1, _, _, _, _, _, _, hmap1⟩ :=
      getN_modifyAtPath_above base (base ++ [j]) r1 setCutNode setCutNode_nid
        ⟨[j], rfl⟩ hbnep (rho par) hpar1
    have hmap1b : par1.children.map Node.nid = par.children.map Node.nid := by
      rw [hmap1, Hcmap]
    have hjth : par.children[j]? = some n := by
      rw [← getN_append_last base j stR par hpar]
      exact hn
    have hstep2 : ∃ m1, getN base
        (modifyAtPath t (modifyAtPath (base ++ [j]) r1 setCutNode)
          (fun nn => nn.withChildren
            (nn.children ++ [setNormalFore (setCutNode (rho n))]))) = some m1 ∧
        m1.children.map Node.nid =
          par.children.map Node.nid ++ (if t = base then [n.nid] else []) := by
      by_cases hteq : t = base
      · subst hteq
        have hxp : tgtX = par1 := by
          rw [hgtX] at hgpar1
          exact Option.some.inj hgpar1
        refine ⟨tgtX.withChildren
            (tgtX.children ++ [setNormalFore (setCutNode (rho n))]), ?_, ?_⟩
        · rw [getN_modifyAtPath_self, hgtX]
          rfl
        · rw [Node.children_withChildren, List.map_append, hxp, hmap1b, if_pos rfl]
          simp [setNormalFore_setCutNode, Hnid]
      · by_cases hbt : List.IsPrefix base t
        · obtain ⟨m1, hm1, _, _, _, _, _, _, hmapm⟩ :=
            getN_modifyAtPath_above base t _
              (fun nn => nn.withChildren
                (nn.children ++ [setNormalFore (setCutNode (rho n))]))
              (fun x => by simp) hbt (fun hceq => hteq hceq.symm) par1 hgpar1
          exact ⟨m1, hm1, by rw [if_neg hteq, List.append_nil, hmapm, hmap1b]⟩
        · by_cases htb : List.IsPrefix t base
          · obtain ⟨s2, hs2⟩ := htb
            cases s2 with
            | nil =>
                exfalso
                rw [List.append_nil] at hs2
                exact hteq hs2
            | cons k brest =>
                have hkb : getN (k :: brest) tgtX.children = some par1 := by
                  have hbb := getN_append t k brest
                    (modifyAtPath (base ++ [j]) r1 setCutNode) tgtX hgtX
                  rw [hs2] at hbb
                  rw [hbb] at hgpar1
                  exact hgpar1
                have hklt2 : k < tgtX.children.length :=
                  getN_cons_lt _ _ _ _ hkb
                have hgtr3b : getN t (modifyAtPath t
                    (modifyAtPath (base ++ [j]) r1 setCutNode)
                    (fun nn => nn.withChildren
                      (nn.children ++ [setNormalFore (setCutNode (rho n))]))) =
                    some (tgtX.withChildren
                      (tgtX.children ++ [setNormalFore (setCutNode (rho n))])) := by
                  rw [getN_modifyAtPath_self, hgtX]
                  rfl
                refine ⟨par1, ?_, by rw [if_neg hteq, List.append_nil, hmap1b]⟩
                have hgoal := getN_append t k brest
                  (modifyAtPath t (modifyAtPath (base ++ [j]) r1 setCutNode)
                    (fun nn => nn.withChildren
                      (nn.children ++ [setNormalFore (setCutNode (rho n))])))
                  (tgtX.withChildren
                    (tgtX.children ++ [setNormalFore (setCutNode (rho n))])) hgtr3b
                rw [hs2] at hgoal
                rw [hgoal, Node.children_withChildren,
                  getN_cons_append_left k brest _ _ hklt2]
                exact hkb
          · refine ⟨par1, ?_, by rw [if_neg hteq, List.append_nil, hmap1b]⟩
            rw [getN_modifyAtPath_other t base htb hbt]
            exact hgpar1
    obtain ⟨m1, hm1, hmapm1⟩ := hstep2
    have hrem := getN_removeAtPath_parent base j _ m1 hb hm1
    refine ⟨m1.withChildren (m1.children.eraseIdx j), by rw [hst2]; exact hrem, ?_, ?_⟩
    · rw [Node.children_withChildren, map_nid_eraseIdx, hmapm1]
      by_cases hteq : t = base
      · rw [if_pos hteq]
        have hjlt : j < (par.children.map Node.nid).length := by
          rw [List.length_map]
          by_contra hcon
          rw [List.getElem?_eq_none (by omega)] at hjth
          cases hjth
        exact List.eraseIdx_append_of_lt_length hjlt _
      · rw [if_neg hteq, List.append_nil, List.append_nil]
    · refine not_mem_eraseIdx_of_nodup _ j n.nid ?_ ?_
      · exact children_map_nid_nodup stR hnd par (getN_mem base stR par hpar)
      · rw [List.getElem?_map, hjth]
        rfl

/-- C4 (amended): cutting the node `n` at `base ++ [j]` and pasting onto a
legal target `t` — any target accepting `n`'s variant that is not `n`
itself and does not lie inside `n`'s subtree, with any clip reference
pending beforehand — moves `n`: it is appended as the last child of the
target with its foreground repainted to normal but its `cutSource` boolean
STILL SET, since `resetForeground` clears only the brush; its subtree
comes along intact except that the previously referenced clip item, if
inside it, was repainted; the row it occupied under its former parent
closes up (when the target is that very parent, `n` reappears as the new
last child); and the document's clip reference becomes null. -/
theorem cut_then_paste_moves_node (st : DocSt) (base t : List Nat) (j : Nat)
    (n tgt : Node)
    (hnd : (nidsOf st.roots).Nodup)
    (hn : getN (base ++ [j]) st.roots = some n) (hcut : canCut n.variant = true)
    (ht : getN t st.roots = some tgt) (hpaste : canPaste tgt.variant n.variant = true)
    (hne : n.nid ≠ tgt.nid)
    (hpt : ¬ List.IsPrefix (base ++ [j]) t) :
    (pasteOp (cutOp st (base ++ [j])) t).clip = none ∧
    getN (shiftAfterRemove (base ++ [j]) (t ++ [tgt.children.length]))
        (pasteOp (cutOp st (base ++ [j])) t).roots =
      some (.mk n.nid n.text true false .normal n.payload (clipReset st n.children)) ∧
    (clipReset st n.children).map Node.nid = n.children.map Node.nid ∧
    (∀ par, base ≠ [] → getN base st.roots = some par →
      ∃ par2, getN base (pasteOp (cutOp st (base ++ [j])) t).roots = some par2 ∧
        par2.children.map Node.nid =
          ((par.children.map Node.nid).eraseIdx j) ++
            (if t = base then [n.nid] else []) ∧
        n.nid ∉ (par.children.map Node.nid).eraseIdx j) := by
  cases hc : st.clip with
  | none =>
      have hst1 : cutOp st (base ++ [j]) =
          { roots := modifyAtPath (base ++ [j]) st.roots setCutNode,
            clip := some n.nid, nextId := st.nextId } := by
        simp only [cutOp, hn, hcut, if_true, hc]
      have hcr : clipReset st n.children = n.children := by
        simp only [clipReset, hc]
      have h := paste_cut_core st.roots st.nextId base t j n tgt st.roots
        (fun x => x) (fun q => by cases getN q st.roots <;> rfl)
        (fun x => rfl) (fun x => rfl) (fun x => rfl) (fun x => rfl) rfl
        hnd hn ht hpaste hne hpt
      rw [hst1, hcr]
      exact ⟨h.1, h.2.1, rfl, h.2.2⟩
  | some cid =>
      have hst1 : cutOp st (base ++ [j]) =
          { roots := modifyAtPath (base ++ [j])
              (resetForeRows cid st.roots) setCutNode,
            clip := some n.nid, nextId := st.nextId } := by
        simp only [cutOp, hn, hcut, if_true, hc]
      have hcr : clipReset st n.children = resetForeRows cid n.children := by
        simp only [clipReset, hc]
      have h := paste_cut_core st.roots st.nextId base t j n tgt
        (resetForeRows cid st.roots) (resetNode cid)
        (fun q => getN_resetForeRows cid q st.roots)
        (resetNode_nid cid) (resetNode_payload cid) (resetNode_text cid)
        (fun x => by rw [resetNode_children, map_nid_resetForeRows])
        (nidsOf_resetForeRows cid st.roots)
        hnd hn ht hpaste hne hpt
      rw [hst1, hcr]
      refine ⟨h.1, ?_, map_nid_resetForeRows cid n.children, h.2.2⟩
      have h21 := h.2.1
      rw [resetNode_children] at h21
      exact h21

/-- C4 counterexample state: a ticker holding one field, and a second,
empty ticker to paste onto. -/
def exDoc4 : DocSt :=
  { roots := [.mk 70 "A" false false .normal (.ticker ⟨1, "A", "", "", "", "", 0, ""⟩)
      [.mk 71 "bid" false false .normal (.field 1) []],
    .mk 72 "B" false false .normal (.ticker ⟨2, "B", "", "", "", "", 0, ""⟩) []],
    clip := none, nextId := 100 }

/-- Counterexample for C4: after cutting the field and pasting it onto the
second ticker, the moved node still carries `cutSource = true` — the claim
says the node's clipState is cleared, but the code only repaints the
foreground (`resetForeground`) and nulls the clip reference. -/
theorem paste_after_cut_keeps_cutSource :
    getN [1, 0] (pasteOp (cutOp exDoc4 [0, 0]) [1]).roots =
      some (.mk 71 "bid" true false .normal (.field 1) []) ∧
    (pasteOp (cutOp exDoc4 [0, 0]) [1]).clip = none := by
  have hcutst : cutOp exDoc4 [0, 0] =
      { roots := [.mk 70 "A" false false .normal (.ticker ⟨1, "A", "", "", "", "", 0, ""⟩)
          [.mk 71 "bid" true false .red (.field 1) []],
        .mk 72 "B" false false .normal (.ticker ⟨2, "B", "", "", "", "", 0, ""⟩) []],
        clip := some 71, nextId := 100 } := by rfl
  have hinner : findByIdRows 71 [Node.mk 71 "bid" true false .red (.field 1) []] 0 =
      some ([0], .mk 71 "bid" true false .red (.field 1) []) := by
    rw [findByIdRows_cons, if_pos (show ((71 : Nat) == 71) = true from rfl)]
  have hfind : findById
      [Node.mk 70 "A" false false .normal (.ticker ⟨1, "A", "", "", "", "", 0, ""⟩)
        [.mk 71 "bid" true false .red (.field 1) []],
       Node.mk 72 "B" false false .normal (.ticker ⟨2, "B", "", "", "", "", 0, ""⟩) []] 71 =
      some ([0, 0], .mk 71 "bid" true false .red (.field 1) []) := by
    rw [findById, findByIdRows_cons, if_neg (by decide), hinner, consPath_some]
  have hp : pasteOp (cutOp exDoc4 [0, 0]) [1] =
      { roots := [.mk 70 "A" false false .normal (.ticker ⟨1, "A", "", "", "", "", 0, ""⟩) [],
          .mk 72 "B" false false .normal (.ticker ⟨2, "B", "", "", "", "", 0, ""⟩)
            [.mk 71 "bid" true false .normal (.field 1) []]],
        clip := none, nextId := 100 } := by
    rw [hcutst]
    simp only [pasteOp, getN]
    rw [hfind]
    rfl
  rw [hp]
  exact ⟨rfl, rfl⟩

/-- Witness for C4's amended statement, on the same concrete move. -/
theorem cut_then_paste_moves_node_witness :
    (pasteOp (cutOp exDoc4 ([0] ++ [0])) [1]).clip = none ∧
    getN [1, 0] (pasteOp (cutOp exDoc4 ([0] ++ [0])) [1]).roots =
      some (.mk 71 "bid" true false .normal (.field 1) []) ∧
    ∃ par2, getN [0] (pasteOp (cutOp exDoc4 ([0] ++ [0])) [1]).roots = some par2 ∧
      par2.children.map Node.nid = [] := by
  have hnd : (nidsOf exDoc4.roots).Nodup := by
    have h : nidsOf exDoc4.roots = [70, 71, 72] := by
      simp [nidsOf, exDoc4, allNodesRows]
    rw [h]
    decide
  have h := cut_then_paste_moves_node exDoc4 [0] [1] 0
    (.mk 71 "bid" false false .normal (.field 1) [])
    (.mk 72 "B" false false .normal (.ticker ⟨2, "B", "", "", "", "", 0, ""⟩) [])
    hnd rfl rfl rfl rfl (by decide)
    (by rintro ⟨r, hr⟩; simp at hr)
  refine ⟨h.1, by simpa [clipReset, exDoc4] using h.2.1, ?_⟩
  obtain ⟨par2, hpar2, hmap, _⟩ := h.2.2.2
    (.mk 70 "A" false false .normal (.ticker ⟨1, "A", "", "", "", "", 0, ""⟩)
      [.mk 71 "bid" false false .normal (.field 1) []]) (by simp) rfl
  exact ⟨par2, hpar2, by simpa using hmap⟩

end ProfitTicker
